import Mathlib

/-!
ntails: tail-start positioning, colour assignment, headers and printing

A shallow embedding of `ntail.go`.  Go strings and file contents are byte
sequences (`List Nat`), the operating system is an explicit file system value
whose operations may fail, and the external watcher (`tail.TailFile`) is a
parameter of the environment.  Integers of the 64-bit platform are `Int`/`Nat`
with explicit wrap-around where the code converts or adds.
-/

namespace NTails

/-! ## Data model -/

/-- Go strings are byte sequences. -/
abbrev GoString := List Nat

/-- The ASCII bytes of a Lean string literal (used to write concrete inputs). -/
def ascii (s : String) : GoString := s.toList.map Char.toNat

/-- The newline byte. -/
def NL : Nat := 10

/-- Errors returned by the operating system and the collaborators.
`notExist` is the class recognised by `os.IsNotExist`, `eof` is `io.EOF`. -/
inductive Error where
  | notExist
  | eof
  | other (code : Nat)
  deriving DecidableEq, Repr

deriving instance DecidableEq for Except

/-- Go's `os.IsNotExist`. -/
def Error.isNotExist : Error → Bool
  | .notExist => true
  | _ => false

/-- An opened file: its bytes, and which of `Stat`, `Seek` (by absolute target
offset) and `Read` (by offset) fail on it. -/
structure File where
  data : List Nat
  statErr : Option Error
  seekErr : Nat → Option Error
  readErr : Nat → Option Error

/-- A regular file on which every operation succeeds. -/
def File.regular (content : List Nat) : File :=
  { data := content, statErr := none, seekErr := fun _ => none, readErr := fun _ => none }

/-- The size reported by `f.Stat()`. -/
def File.stat (f : File) : Except Error Nat :=
  match f.statErr with
  | some e => .error e
  | none => .ok f.data.length

/-- Seeking to the absolute offset `off`; returns the new offset. -/
def File.seek (f : File) (off : Nat) : Except Error Nat :=
  match f.seekErr off with
  | some e => .error e
  | none => .ok off

/-- Reading one byte at offset `off` (`f.Read(buf)` with a 1-byte buffer). -/
def File.read (f : File) (off : Nat) : Except Error Nat :=
  match f.readErr off with
  | some e => .error e
  | none =>
    match f.data.get? off with
    | some b => .ok b
    | none => .error .eof

/-- The file system: what `os.Open` (and `tail.OpenFile`, which is `os.Open`
on POSIX) returns for a path. -/
abbrev FileSystem := GoString → Except Error File

/-! ## Machine integers -/

/-- Two's-complement wrap-around of an integer to 64 bits (`int`, `int64`). -/
def wrapInt64 (x : Int) : Int := (x + 2 ^ 63) % 2 ^ 64 - 2 ^ 63

/-- The conversion `int(n)` of a `uint` value. -/
def intOfUint (n : Nat) : Int := wrapInt64 (n % 2 ^ 64 : Nat)

/-! ## lastLinesPos -/

/-- The loop `for pos > 0 && c >= 0 { ... }` of `lastLinesPos`, from the
position `pos` with counter `c`; returns the final `pos`. -/
def scanLoop (f : File) : Nat → Int → Except Error Nat
  | 0, _ => .ok 0
  | pos + 1, c =>
    if 0 ≤ c then
      match f.seek pos with
      | .error e => .error e
      | .ok p =>
        match f.read p with
        | .error e => .error e
        | .ok b => scanLoop f pos (if b = NL then c - 1 else c)
    else .ok (pos + 1)

/-- The body of `lastLinesPos` once the file is open. -/
def lastLinesPosFile (f : File) (n : Nat) : Except Error Int :=
  match f.stat with
  | .error e => .error e
  | .ok size =>
    if size = 0 then .ok 0
    else
      match f.seek (size - 1) with
      | .error e => .error e
      | .ok _ =>
        match scanLoop f size (intOfUint n) with
        | .error e => .error e
        | .ok pos => .ok (wrapInt64 (pos + 1))

/-- The function `lastLinesPos(filename, n)`. -/
def lastLinesPos (fs : FileSystem) (filename : GoString) (n : Nat) : Except Error Int :=
  match fs filename with
  | .error e => .error e
  | .ok f => lastLinesPosFile f n

/-- The concatenation of newline-terminated lines. -/
def joinLines (lines : List (List Nat)) : List Nat :=
  (lines.map (fun l => l ++ [NL])).flatten

/-- A file system holding one regular file. -/
def singleFile (name : GoString) (content : List Nat) : FileSystem :=
  fun p => if p = name then .ok (File.regular content) else .error .notExist

/-! ## Colours -/

/-- The type `AnsiColor` (a Go `int`). -/
abbrev AnsiColor := Int

def ColorBlack : AnsiColor := 30
def ColorRed : AnsiColor := 31
def ColorGreen : AnsiColor := 32
def ColorYellow : AnsiColor := 33
def ColorBlue : AnsiColor := 34
def ColorMagenta : AnsiColor := 35
def ColorCyan : AnsiColor := 36
def ColorWhite : AnsiColor := 37
def AutoColor : AnsiColor := -1
def NoColor : AnsiColor := 0

/-- The palette `Colors`. -/
def Colors : List AnsiColor :=
  [ColorRed, ColorGreen, ColorYellow, ColorBlue, ColorMagenta, ColorCyan]

/-- The checksum `adler32.Checksum` (RFC 1950): the two running sums modulo
65521, packed as `b << 16 | a`. -/
def adler32 (data : List Nat) : Nat :=
  let st := data.foldl
    (fun (st : Nat × Nat) x => ((st.1 + x) % 65521, (st.2 + (st.1 + x) % 65521) % 65521)) (1, 0)
  st.2 * 65536 + st.1

/-- The function `color(basename)`: `Colors[s % uint32(len(Colors))]`. -/
def color (basename : GoString) : AnsiColor :=
  Colors.get ⟨adler32 basename % Colors.length, Nat.mod_lt _ (by decide)⟩

/-! ## Paths -/

/-- The path separator byte '/'. -/
def Separator : Nat := 47

/-- The function `filepath.Base` on POSIX: strip trailing separators, keep what
follows the last separator; "." for the empty path and "/" for a path of
separators only. -/
def Base (path : GoString) : GoString :=
  if path = [] then ascii "."
  else
    let stripped := (path.reverse.dropWhile (fun b => b = Separator)).reverse
    let last := (stripped.reverse.takeWhile (fun b => b ≠ Separator)).reverse
    if last = [] then [Separator] else last

/-- The function `maxBaseLength`. -/
def maxBaseLength (filenames : List GoString) : Int :=
  filenames.foldl
    (fun (max : Int) filename =>
      if ((Base filename).length : Int) > max then ((Base filename).length : Int) else max) 0

/-! ## Formatting (package fmt) -/

/-- The number of bytes of the first rune of a non-empty string, as package
`unicode/utf8` decodes it: an invalid or short encoding has width 1. -/
def runeLen : List Nat → Nat
  | [] => 0
  | c :: rest =>
    if c < 0xC2 then 1
    else if c ≤ 0xDF then
      match rest with
      | c1 :: _ => if 0x80 ≤ c1 ∧ c1 ≤ 0xBF then 2 else 1
      | _ => 1
    else if c ≤ 0xEF then
      match rest with
      | c1 :: c2 :: _ =>
        if (if c = 0xE0 then 0xA0 else 0x80) ≤ c1 ∧ c1 ≤ (if c = 0xED then 0x9F else 0xBF) then
          if 0x80 ≤ c2 ∧ c2 ≤ 0xBF then 3 else 1
        else 1
      | _ => 1
    else if c ≤ 0xF4 then
      match rest with
      | c1 :: c2 :: c3 :: _ =>
        if (if c = 0xF0 then 0x90 else 0x80) ≤ c1 ∧ c1 ≤ (if c = 0xF4 then 0x8F else 0xBF) then
          if 0x80 ≤ c2 ∧ c2 ≤ 0xBF then
            if 0x80 ≤ c3 ∧ c3 ≤ 0xBF then 4 else 1
          else 1
        else 1
      | _ => 1
    else 1

/-- Counting runes with `skip` bytes of the current rune still to pass. -/
def runeCountFrom : Nat → List Nat → Nat
  | _, [] => 0
  | 0, c :: rest => 1 + runeCountFrom (runeLen (c :: rest) - 1) rest
  | skip + 1, _ :: rest => runeCountFrom skip rest

/-- The function `utf8.RuneCountInString`. -/
def RuneCountInString (s : GoString) : Nat := runeCountFrom 0 s

/-- The verb `%d` on an `int`. -/
def fmtInt (i : Int) : GoString := ascii (toString i)

/-- The largest width package fmt accepts (`tooLarge` in fmt/print.go). -/
def fmtMaxWidth : Int := 1000000

/-- The verb `%*s`: the string padded with spaces to `wid` runes, on the left,
or on the right when `wid` is negative; a width beyond `fmtMaxWidth` is
rejected with the text `%!(BADWIDTH)` and the string is then printed unpadded. -/
def fmtStarS (wid : Int) (s : GoString) : GoString :=
  if wid > fmtMaxWidth ∨ wid < -fmtMaxWidth then ascii "%!(BADWIDTH)" ++ s
  else if wid < 0 then s ++ List.replicate ((-wid).toNat - RuneCountInString s) 32
  else List.replicate (wid.toNat - RuneCountInString s) 32 ++ s

/-! ## Configuration and targets -/

/-- The type `tail.SeekInfo`. -/
structure SeekInfo where
  Offset : Int
  Whence : Int
  deriving DecidableEq, Repr

/-- The constant `os.SEEK_SET`. -/
def SEEK_SET : Int := 0

/-- The fields of `tail.Config` that the program sets. -/
structure TailConfig where
  Location : Option SeekInfo
  ReOpen : Bool
  MustExist : Bool
  Poll : Bool
  Follow : Bool
  deriving DecidableEq, Repr

/-- The type `NTailConfig`. -/
structure NTailConfig where
  Config : TailConfig
  Lines : Nat
  PrintFilename : Bool
  FilenameWidth : Int
  Color : AnsiColor
  deriving DecidableEq, Repr

/-- The type `tail.Line`: a line event. -/
structure Line where
  Text : GoString
  Err : Option Error
  deriving DecidableEq, Repr

/-- The type `tail.Tail`: the watcher of one file, with the events its channel
`Lines` delivers until it is closed. -/
structure Tail where
  Filename : GoString
  Lines : List Line
  Config : TailConfig
  deriving DecidableEq, Repr

/-- The type `NTail`. -/
structure NTail where
  Tail : Tail
  Config : NTailConfig
  deriving DecidableEq, Repr

/-- The world around the program: the file system, and what the watcher started
on a path with a configuration does (fails to start, or delivers events). -/
structure Env where
  fs : FileSystem
  watch : GoString → TailConfig → Except Error (List Line)

/-- The function `tail.TailFile`: the watcher it returns records the file name
and the configuration it was given. -/
def TailFile (env : Env) (filename : GoString) (config : TailConfig) : Except Error Tail :=
  match env.watch filename config with
  | .error e => .error e
  | .ok events => .ok { Filename := filename, Lines := events, Config := config }

/-- The variable `DefaultLines`. -/
def DefaultLines : Nat := 10

/-- The step `if config.Lines == 0 { config.Lines = DefaultLines }`. -/
def withDefaultLines (config : NTailConfig) : NTailConfig :=
  if config.Lines = 0 then { config with Lines := DefaultLines } else config

/-- The rest of `NewNTail` once the start offset `pos` is decided: the watcher
is started with `Location` at `pos` from the start of the file, then the width
and the colour of the target are settled. -/
def startAt (env : Env) (filename : GoString) (config : NTailConfig) (pos : Int) :
    Except Error NTail :=
  let config := { config with
    Config := { config.Config with Location := some { Offset := pos, Whence := SEEK_SET } } }
  match TailFile env filename config.Config with
  | .error e => .error e
  | .ok t =>
    let config :=
      if config.FilenameWidth ≤ 0 then { config with FilenameWidth := (filename.length : Int) }
      else config
    let config :=
      if config.Color = AutoColor then { config with Color := color (Base filename) }
      else config
    .ok { Tail := t, Config := config }

/-- The function `NewNTail`. -/
def NewNTail (env : Env) (filename : GoString) (config : NTailConfig) : Except Error NTail :=
  let probe : Option Error :=
    match env.fs filename with
    | .error e => if !e.isNotExist && !config.Config.ReOpen then some e else none
    | .ok _ => none
  match probe with
  | some e => .error e
  | none =>
    let config := withDefaultLines config
    match lastLinesPos env.fs filename config.Lines with
    | .error e => if config.Config.ReOpen then startAt env filename config 0 else .error e
    | .ok pos => startAt env filename config pos

/-- The step of `NewNTails` that fixes the shared width. -/
def withWidth (filenames : List GoString) (config : NTailConfig) : NTailConfig :=
  if config.FilenameWidth ≤ 0 then { config with FilenameWidth := maxBaseLength filenames }
  else config

/-- The configuration `c` that the loop of `NewNTails` gives the file at index `i`. -/
def withColor (config : NTailConfig) (consistentColor : Bool) (i : Nat) : NTailConfig :=
  if config.Color = AutoColor ∧ !consistentColor then
    { config with Color := Colors.get ⟨i % Colors.length, Nat.mod_lt _ (by decide)⟩ }
  else config

/-- The loop of `NewNTails` from index `i`, with the targets built so far. -/
def newNTailsLoop (env : Env) (config : NTailConfig) (consistentColor : Bool) :
    Nat → List GoString → List NTail → Except Error (List NTail)
  | _, [], ntails => .ok ntails
  | i, filename :: rest, ntails =>
    match NewNTail env filename (withColor config consistentColor i) with
    | .error e => .error e
    | .ok nt => newNTailsLoop env config consistentColor (i + 1) rest (ntails ++ [nt])

/-- The function `NewNTails`. -/
def NewNTails (env : Env) (filenames : List GoString) (config : NTailConfig)
    (consistentColor : Bool) : Except Error (List NTail) :=
  newNTailsLoop env (withWidth filenames config) consistentColor 0 filenames []

/-- The method `header`. -/
def NTail.header (nt : NTail) (basename : GoString) : GoString :=
  if !nt.Config.PrintFilename then []
  else if nt.Config.Color ≠ NoColor then
    [27] ++ ascii "[" ++ fmtInt nt.Config.Color ++ ascii "m"
      ++ fmtStarS nt.Config.FilenameWidth basename ++ [27] ++ ascii "[0m: "
  else fmtStarS nt.Config.FilenameWidth basename ++ ascii ": "

/-- An `io.Writer`: a state, and a `Write` that takes the payload and may fail. -/
structure Writer (σ : Type) where
  write : σ → GoString → σ × Option Error

/-- The loop `for line := range nt.Lines` of `Print` with `fmt.Fprintf`, which
formats the line and hands it to the writer in one `Write`. -/
def printLoop {σ : Type} (w : Writer σ) (header : GoString) : List Line → σ → σ × Option Error
  | [], s => (s, none)
  | line :: rest, s =>
    match line.Err with
    | some e => (s, some e)
    | none =>
      match w.write s (header ++ line.Text ++ [NL]) with
      | (s1, some e) => (s1, some e)
      | (s1, none) => printLoop w header rest s1

/-- The method `Print`: the final state of the writer and the error returned. -/
def NTail.Print {σ : Type} (nt : NTail) (w : Writer σ) (s : σ) : σ × Option Error :=
  let basename := Base nt.Tail.Filename
  let header := nt.header basename
  printLoop w header nt.Tail.Lines s

/-- A writer that accepts every write and records the payloads in order. -/
def recorder : Writer (List GoString) :=
  { write := fun log p => (log ++ [p], none) }

/-! ## Definitions used in the statements and proofs -/

/-- The scan loop on the bytes of a regular file, where no operation fails. -/
def scanBack (data : List Nat) : Nat → Int → Nat
  | 0, _ => 0
  | pos + 1, c =>
    if 0 ≤ c then scanBack data pos (if data.get? pos = some NL then c - 1 else c)
    else pos + 1

/-- The 12 lines "1" .. "12". -/
def twelveLines : List (List Nat) :=
  (List.range 12).map (fun i => ascii (Nat.repr (i + 1)))


/-- An environment holding the regular files of `files`; every watcher starts
and delivers no event. -/
def quietEnv (files : List (GoString × List Nat)) : Env :=
  { fs := fun p =>
      match files.lookup p with
      | some content => .ok (File.regular content)
      | none => .error .notExist
    watch := fun _ _ => .ok [] }

/-- The configuration `main` builds for plain `ntails FILE...` with several
files: no follow, 10 lines, file names printed, colours chosen automatically. -/
def mainConfig : NTailConfig :=
  { Config := { Location := none, ReOpen := false, MustExist := true, Poll := false,
                Follow := false }
    Lines := 10
    PrintFilename := true
    FilenameWidth := 0
    Color := AutoColor }

/-- The two files of the end-to-end scenario: `a.log` (5 lines), `bb.log` (3 lines). -/
def twoFiles : List (GoString × List Nat) :=
  [(ascii "a.log", ascii "1\n2\n3\n4\n5\n"), (ascii "bb.log", ascii "x\ny\nz\n")]

/-- A second run: `bb.log` as before and another file named `a.log`, in
another directory. -/
def otherFiles : List (GoString × List Nat) :=
  [(ascii "bb.log", ascii "x\ny\nz\n"), (ascii "/tmp/x/a.log", ascii "q\n")]

/-- The files of `twoFiles`, and a path `secret.log` whose opening is refused
(error code 13, permission denied). -/
def lockedEnv : Env :=
  { fs := fun p =>
      if p = ascii "secret.log" then .error (.other 13) else (quietEnv twoFiles).fs p
    watch := fun _ _ => .ok [] }

/-- The configuration `main` builds for `ntails -F FILE...`. -/
def reopenConfig : NTailConfig :=
  { mainConfig with
    Config := { Location := none, ReOpen := true, MustExist := false, Poll := false,
                Follow := true } }

/-- A target whose watcher delivers two lines, then an error, then one more line. -/
def sampleTarget : NTail :=
  { Tail := { Filename := ascii "/var/log/a.log"
              Lines := [⟨ascii "one", none⟩, ⟨ascii "two", none⟩, ⟨[], some (.other 5)⟩,
                        ⟨ascii "three", none⟩]
              Config := mainConfig.Config }
    Config := { mainConfig with FilenameWidth := 6, Color := NoColor } }

/-- A file name of `n` bytes 'a'. -/
def wideName (n : Nat) : GoString := List.replicate n 97

/-- An environment without any file, in which every watcher starts. -/
def absentEnv : Env :=
  { fs := fun _ => .error .notExist
    watch := fun _ _ => .ok [] }

/-- The configuration of `ntails -F --no-color` with file names printed. -/
def plainReopenConfig : NTailConfig := { reopenConfig with Color := NoColor }

/-- The target `NewNTails` builds for `wideName n` alone under `plainReopenConfig`. -/
def wideTarget (n : Nat) : NTail :=
  { Tail := { Filename := wideName n, Lines := []
              Config := { plainReopenConfig.Config with Location := some ⟨0, SEEK_SET⟩ } }
    Config := { plainReopenConfig with
                Config := { plainReopenConfig.Config with Location := some ⟨0, SEEK_SET⟩ }
                FilenameWidth := (n : Int) } }
/-! ## Helper lemmas: machine integers -/

theorem wrapInt64_of_range (x : Int) (h0 : 0 ≤ x) (h1 : x < 2 ^ 63) : wrapInt64 x = x := by
  unfold wrapInt64
  omega

theorem intOfUint_of_lt (n : Nat) (h : n < 2 ^ 63) : intOfUint n = (n : Int) := by
  unfold intOfUint
  have h2 : n % 2 ^ 64 = n := Nat.mod_eq_of_lt (by omega)
  rw [h2]
  exact wrapInt64_of_range _ (by omega) (by exact_mod_cast h)

theorem intOfUint_neg_of_ge (n : Nat) (h0 : 2 ^ 63 ≤ n) (h1 : n < 2 ^ 64) : intOfUint n < 0 := by
  unfold intOfUint wrapInt64
  have h2 : n % 2 ^ 64 = n := Nat.mod_eq_of_lt h1
  rw [h2]
  omega

/-! ## Helper lemmas: the backward scan on a regular file -/

theorem scanLoop_regular (data : List Nat) :
    ∀ (pos : Nat) (c : Int), pos ≤ data.length →
      scanLoop (File.regular data) pos c = .ok (scanBack data pos c) := by
  intro pos
  induction pos with
  | zero => intro c _; rfl
  | succ pos ih =>
    intro c hpos
    have hlt : pos < data.length := hpos
    obtain ⟨b, hb⟩ : ∃ b, data.get? pos = some b := ⟨data.get ⟨pos, hlt⟩, List.get?_eq_get hlt⟩
    by_cases hc : 0 ≤ c
    · simp only [scanLoop, scanBack, hc, if_true, File.seek, File.read, File.regular, hb]
      have := ih (if b = NL then c - 1 else c) (Nat.le_of_lt hlt)
      simp only [File.regular] at this
      rw [this]
      simp
    · simp [scanLoop, scanBack, hc]

theorem scanBack_le (data : List Nat) : ∀ (pos : Nat) (c : Int), scanBack data pos c ≤ pos := by
  intro pos
  induction pos with
  | zero => intro c; simp [scanBack]
  | succ pos ih =>
    intro c
    by_cases hc : 0 ≤ c
    · simp only [scanBack, hc, if_true]
      exact Nat.le_succ_of_le (ih _)
    · simp [scanBack, hc]

theorem scanBack_lt (data : List Nat) (pos : Nat) (c : Int) (hpos : 0 < pos) (hc : 0 ≤ c) :
    scanBack data pos c < pos := by
  cases pos with
  | zero => omega
  | succ pos =>
    simp only [scanBack, hc, if_true]
    exact Nat.lt_succ_of_le (scanBack_le data pos _)

theorem scanBack_neg (data : List Nat) (pos : Nat) (c : Int) (hc : c < 0) :
    scanBack data pos c = pos := by
  cases pos with
  | zero => rfl
  | succ pos =>
    have : ¬ (0 ≤ c) := by omega
    simp [scanBack, this]

theorem scanBack_step_nl (pre suf : List Nat) (c : Int) (hc : 0 ≤ c) :
    scanBack (pre ++ NL :: suf) (pre.length + 1) c = scanBack (pre ++ NL :: suf) pre.length (c - 1) := by
  have hget : (pre ++ NL :: suf).get? pre.length = some NL := by
    rw [List.get?_eq_getElem?, List.getElem?_append_right (le_refl _)]
    simp
  simp only [scanBack, hc, if_true, hget]

theorem scanBack_step_other (pre suf : List Nat) (b : Nat) (c : Int) (hc : 0 ≤ c) (hb : b ≠ NL) :
    scanBack (pre ++ b :: suf) (pre.length + 1) c = scanBack (pre ++ b :: suf) pre.length c := by
  have hget : (pre ++ b :: suf).get? pre.length = some b := by
    rw [List.get?_eq_getElem?, List.getElem?_append_right (le_refl _)]
    simp
  have hne : ¬ (some b = some NL) := by
    intro h; exact hb (Option.some.inj h)
  simp only [scanBack, hc, if_true, hget, hne, if_false]

/-- Scanning backward over a stretch without newline leaves the counter unchanged. -/
theorem scanBack_skip (l : List Nat) : ∀ (pre suf : List Nat) (c : Int), 0 ≤ c → NL ∉ l →
    scanBack (pre ++ l ++ suf) (pre.length + l.length) c = scanBack (pre ++ l ++ suf) pre.length c := by
  induction l using List.reverseRecOn with
  | nil => intro pre suf c _ _; simp
  | append_singleton l b ih =>
    intro pre suf c hc hnl
    have hb : b ≠ NL := by
      intro h; apply hnl; simp [h]
    have hl : NL ∉ l := by
      intro h; apply hnl; simp [h]
    have e1 : pre ++ (l ++ [b]) ++ suf = (pre ++ l) ++ b :: suf := by simp
    have e2 : pre.length + (l ++ [b]).length = (pre ++ l).length + 1 := by
      simp; omega
    rw [e1, e2, scanBack_step_other (pre ++ l) suf b c hc hb]
    have e3 : (pre ++ l) ++ b :: suf = pre ++ l ++ (b :: suf) := by simp
    rw [e3, List.length_append]
    exact ih pre (b :: suf) c hc hl

theorem joinLines_append (xs ys : List (List Nat)) :
    joinLines (xs ++ ys) = joinLines xs ++ joinLines ys := by
  simp [joinLines]

theorem joinLines_singleton (x : List Nat) : joinLines [x] = x ++ [NL] := by
  simp [joinLines]

/-- Scanning backward from the end of `c` newline-terminated lines with counter
`c` stops on the newline that precedes them. -/
theorem scanBack_lines (B : List (List Nat)) : ∀ (A suf : List Nat) (c : Int),
    (∀ x ∈ B, NL ∉ x) → c = (B.length : Int) →
    scanBack (A ++ NL :: (joinLines B ++ suf)) (A.length + 1 + (joinLines B).length) c
      = A.length := by
  induction B using List.reverseRecOn with
  | nil =>
    intro A suf c _ hc
    subst hc
    have hj : joinLines ([] : List (List Nat)) = [] := rfl
    simp only [hj, List.nil_append, List.length_nil, Nat.add_zero]
    rw [scanBack_step_nl A suf _ (by simp)]
    exact scanBack_neg _ _ _ (by simp)
  | append_singleton B x ih =>
    intro A suf c hB hc
    have hx : NL ∉ x := hB x (by simp)
    have hB2 : ∀ y ∈ B, NL ∉ y := fun y hy => hB y (by simp [hy])
    have hc0 : 0 ≤ c := by rw [hc]; exact Int.natCast_nonneg _
    have hc1 : c - 1 = (B.length : Int) := by
      rw [hc]; simp
    have hc10 : 0 ≤ c - 1 := by rw [hc1]; exact Int.natCast_nonneg _
    rw [joinLines_append, joinLines_singleton]
    have e1 : A ++ NL :: (joinLines B ++ (x ++ [NL]) ++ suf)
        = (A ++ NL :: joinLines B ++ x) ++ NL :: suf := by simp
    have e2 : A.length + 1 + (joinLines B ++ (x ++ [NL])).length
        = (A ++ NL :: joinLines B ++ x).length + 1 := by
      simp; omega
    rw [e1, e2, scanBack_step_nl _ suf c hc0]
    have e3 : (A ++ NL :: joinLines B ++ x) ++ NL :: suf
        = (A ++ NL :: joinLines B) ++ x ++ (NL :: suf) := by simp
    have e4 : (A ++ NL :: joinLines B ++ x).length = (A ++ NL :: joinLines B).length + x.length := by
      simp; omega
    rw [e3, e4, scanBack_skip x (A ++ NL :: joinLines B) (NL :: suf) (c - 1) hc10 hx]
    have e5 : (A ++ NL :: joinLines B) ++ x ++ (NL :: suf)
        = A ++ NL :: (joinLines B ++ (x ++ NL :: suf)) := by simp
    have e6 : (A ++ NL :: joinLines B).length = A.length + 1 + (joinLines B).length := by
      simp; omega
    rw [e5, e6]
    exact ih A (x ++ NL :: suf) (c - 1) hB2 hc1

theorem length_le_joinLines (lines : List (List Nat)) :
    lines.length ≤ (joinLines lines).length := by
  induction lines with
  | nil => simp
  | cons x xs ih =>
    have e : joinLines (x :: xs) = x ++ [NL] ++ joinLines xs := by simp [joinLines]
    rw [e]
    simp only [List.length_append, List.length_cons, List.length_nil]
    omega

theorem lastLinesPos_regular (fs : FileSystem) (filename : GoString) (content : List Nat)
    (n : Nat) (hopen : fs filename = .ok (File.regular content)) (hne : content ≠ []) :
    lastLinesPos fs filename n
      = .ok (wrapInt64 ((scanBack content content.length (intOfUint n) : Nat) + 1)) := by
  have hlen : content.length ≠ 0 := by
    intro h; exact hne (List.length_eq_zero.mp h)
  simp only [lastLinesPos, hopen, lastLinesPosFile, File.stat, File.regular, File.seek, hlen,
    if_false]
  have := scanLoop_regular content content.length (intOfUint n) (le_refl _)
  simp only [File.regular] at this
  rw [this]

/-- The scan of `M` newline-terminated lines with a counter `N < M`. -/
theorem scanBack_joinLines (lines : List (List Nat)) (N : Nat)
    (hlines : ∀ l ∈ lines, NL ∉ l) (hN : N < lines.length) :
    scanBack (joinLines lines) (joinLines lines).length (N : Int) + 1
      = (joinLines (lines.take (lines.length - N))).length := by
  have hk : 0 < lines.length - N := by omega
  have hsplit : lines = lines.take (lines.length - N) ++ lines.drop (lines.length - N) :=
    (List.take_append_drop _ _).symm
  have hdroplen : (lines.drop (lines.length - N)).length = N := by
    rw [List.length_drop]; omega
  rcases List.eq_nil_or_concat (lines.take (lines.length - N)) with h | ⟨T, l, h⟩
  · have : (lines.take (lines.length - N)).length = 0 := by rw [h]; rfl
    rw [List.length_take] at this
    omega
  · rw [List.concat_eq_append] at h
    have hmemT : ∀ x ∈ lines.take (lines.length - N), x ∈ lines := fun x hx =>
      List.mem_of_mem_take hx
    have hl : NL ∉ l := hlines l (hmemT l (by rw [h]; simp))
    have hB : ∀ x ∈ lines.drop (lines.length - N), NL ∉ x := fun x hx =>
      hlines x (List.mem_of_mem_drop hx)
    have hcontent : joinLines lines
        = (joinLines T ++ l) ++ NL :: (joinLines (lines.drop (lines.length - N)) ++ []) := by
      conv_lhs => rw [hsplit, h]
      rw [joinLines_append, joinLines_append, joinLines_singleton]
      simp
    have hlen : (joinLines lines).length
        = (joinLines T ++ l).length + 1 + (joinLines (lines.drop (lines.length - N))).length := by
      rw [hcontent]; simp; omega
    have hscan := scanBack_lines (lines.drop (lines.length - N)) (joinLines T ++ l) [] (N : Int)
      hB (by rw [hdroplen])
    rw [hlen, hcontent, hscan, h, joinLines_append, joinLines_singleton]
    simp
    omega

theorem scanBack_antitone (data : List Nat) : ∀ (pos : Nat) (c d : Int), c ≤ d →
    scanBack data pos d ≤ scanBack data pos c := by
  intro pos
  induction pos with
  | zero => intro c d _; simp [scanBack]
  | succ pos ih =>
    intro c d hcd
    by_cases hc : 0 ≤ c
    · have hd : 0 ≤ d := le_trans hc hcd
      simp only [scanBack, hc, hd, if_true]
      apply ih
      split <;> omega
    · by_cases hd : 0 ≤ d
      · simp only [scanBack, hc, hd, if_true, if_false]
        exact Nat.le_succ_of_le (scanBack_le data pos _)
      · simp [scanBack, hc, hd]

/-! ## Helper lemmas: construction of targets -/

theorem withDefaultLines_fields (config : NTailConfig) :
    (withDefaultLines config).Config = config.Config ∧
    (withDefaultLines config).PrintFilename = config.PrintFilename ∧
    (withDefaultLines config).FilenameWidth = config.FilenameWidth ∧
    (withDefaultLines config).Color = config.Color := by
  unfold withDefaultLines
  split <;> simp

/-- The probe of `NewNTail` decides nothing: the result is fixed by `lastLinesPos`. -/
theorem NewNTail_eq (env : Env) (filename : GoString) (config : NTailConfig) :
    NewNTail env filename config =
      match lastLinesPos env.fs filename (withDefaultLines config).Lines with
      | .ok pos => startAt env filename (withDefaultLines config) pos
      | .error e =>
        if config.Config.ReOpen then startAt env filename (withDefaultLines config) 0
        else .error e := by
  have hre : (withDefaultLines config).Config.ReOpen = config.Config.ReOpen := by
    rw [(withDefaultLines_fields config).1]
  cases hfs : env.fs filename with
  | ok f =>
    simp only [NewNTail, hfs, hre]
    cases lastLinesPos env.fs filename (withDefaultLines config).Lines <;> rfl
  | error e =>
    have hl : ∀ n, lastLinesPos env.fs filename n = .error e := by
      intro n; simp [lastLinesPos, hfs]
    simp only [NewNTail, hfs, hl, hre]
    cases hr : config.Config.ReOpen <;> cases hn : e.isNotExist <;> simp

theorem startAt_ok (env : Env) (filename : GoString) (config : NTailConfig) (pos : Int)
    (nt : NTail) (h : startAt env filename config pos = .ok nt) :
    nt.Tail.Filename = filename ∧
    nt.Tail.Config.Location = some { Offset := pos, Whence := SEEK_SET } ∧
    nt.Config.Color = (if config.Color = AutoColor then color (Base filename) else config.Color) ∧
    nt.Config.FilenameWidth
      = (if config.FilenameWidth ≤ 0 then (filename.length : Int) else config.FilenameWidth) ∧
    nt.Config.PrintFilename = config.PrintFilename := by
  unfold startAt TailFile at h
  cases hw : env.watch filename
      { config.Config with Location := some { Offset := pos, Whence := SEEK_SET } } with
  | error e => simp [hw] at h
  | ok events =>
    simp only [hw] at h
    injection h with h
    subst h
    refine ⟨rfl, rfl, ?_, ?_, ?_⟩
    · by_cases hc : config.Color = AutoColor <;> by_cases hwd : config.FilenameWidth ≤ 0 <;>
        simp [hc, hwd]
    · by_cases hc : config.Color = AutoColor <;> by_cases hwd : config.FilenameWidth ≤ 0 <;>
        simp [hc, hwd]
    · by_cases hc : config.Color = AutoColor <;> by_cases hwd : config.FilenameWidth ≤ 0 <;>
        simp [hc, hwd]

theorem NewNTail_ok (env : Env) (filename : GoString) (config : NTailConfig) (nt : NTail)
    (h : NewNTail env filename config = .ok nt) :
    nt.Tail.Filename = filename ∧
    nt.Config.Color = (if config.Color = AutoColor then color (Base filename) else config.Color) ∧
    nt.Config.FilenameWidth
      = (if config.FilenameWidth ≤ 0 then (filename.length : Int) else config.FilenameWidth) ∧
    nt.Config.PrintFilename = config.PrintFilename := by
  rw [NewNTail_eq] at h
  obtain ⟨_, h2, h3, h4⟩ := withDefaultLines_fields config
  have key : ∀ pos, startAt env filename (withDefaultLines config) pos = .ok nt →
      nt.Tail.Filename = filename ∧
      nt.Config.Color = (if config.Color = AutoColor then color (Base filename) else config.Color) ∧
      nt.Config.FilenameWidth
        = (if config.FilenameWidth ≤ 0 then (filename.length : Int) else config.FilenameWidth) ∧
      nt.Config.PrintFilename = config.PrintFilename := by
    intro pos hs
    obtain ⟨a, _, c, d, e⟩ := startAt_ok env filename _ pos nt hs
    rw [h4] at c
    rw [h3] at d
    rw [h2] at e
    exact ⟨a, c, d, e⟩
  cases hl : lastLinesPos env.fs filename (withDefaultLines config).Lines with
  | ok pos =>
    rw [hl] at h
    exact key pos h
  | error e =>
    rw [hl] at h
    by_cases hr : config.Config.ReOpen = true
    · simp only [hr, if_true] at h
      exact key 0 h
    · simp [hr] at h

/-- What a successful run of the loop of `NewNTails` returns: the targets built
before, then one target per file name, built by `NewNTail` with the
configuration of its index. -/
theorem newNTailsLoop_ok (env : Env) (config : NTailConfig) (cc : Bool) :
    ∀ (filenames : List GoString) (i : Nat) (acc ts : List NTail),
      newNTailsLoop env config cc i filenames acc = .ok ts →
      ∃ new : List NTail, ts = acc ++ new ∧ new.length = filenames.length ∧
        ∀ (j : Nat) (f : GoString), filenames[j]? = some f →
          ∃ nt, new[j]? = some nt ∧ NewNTail env f (withColor config cc (i + j)) = .ok nt := by
  intro filenames
  induction filenames with
  | nil =>
    intro i acc ts h
    simp only [newNTailsLoop] at h
    injection h with h
    exact ⟨[], by simp [h], rfl, by simp⟩
  | cons f rest ih =>
    intro i acc ts h
    simp only [newNTailsLoop] at h
    cases hn : NewNTail env f (withColor config cc i) with
    | error e => simp [hn] at h
    | ok nt =>
      simp only [hn] at h
      obtain ⟨new, hts, hlen, hall⟩ := ih (i + 1) (acc ++ [nt]) ts h
      refine ⟨nt :: new, by simp [hts], by simp [hlen], ?_⟩
      intro j g hj
      cases j with
      | zero =>
        simp at hj
        subst hj
        exact ⟨nt, by simp, by simpa using hn⟩
      | succ j =>
        simp at hj
        obtain ⟨nt2, h1, h2⟩ := hall j g hj
        refine ⟨nt2, by simpa using h1, ?_⟩
        have : i + (j + 1) = i + 1 + j := by omega
        rw [this]
        exact h2

theorem NewNTails_ok (env : Env) (filenames : List GoString) (config : NTailConfig) (cc : Bool)
    (ts : List NTail) (h : NewNTails env filenames config cc = .ok ts) :
    ts.length = filenames.length ∧
      ∀ (j : Nat) (f : GoString), filenames[j]? = some f →
        ∃ nt, ts[j]? = some nt ∧
          NewNTail env f (withColor (withWidth filenames config) cc j) = .ok nt := by
  obtain ⟨new, hts, hlen, hall⟩ := newNTailsLoop_ok env _ cc filenames 0 [] ts h
  simp only [List.nil_append] at hts
  subst hts
  refine ⟨hlen, ?_⟩
  intro j f hj
  obtain ⟨nt, h1, h2⟩ := hall j f hj
  exact ⟨nt, h1, by simpa using h2⟩

theorem newNTailsLoop_append (env : Env) (config : NTailConfig) (cc : Bool) :
    ∀ (xs ys : List GoString) (i : Nat) (acc : List NTail),
      newNTailsLoop env config cc i (xs ++ ys) acc =
        match newNTailsLoop env config cc i xs acc with
        | .error e => .error e
        | .ok ts => newNTailsLoop env config cc (i + xs.length) ys ts := by
  intro xs
  induction xs with
  | nil => intro ys i acc; simp [newNTailsLoop]
  | cons x xs ih =>
    intro ys i acc
    simp only [List.cons_append, newNTailsLoop, List.length_cons]
    cases NewNTail env x (withColor config cc i) with
    | error e => rfl
    | ok nt =>
      have h := ih ys (i + 1) (acc ++ [nt])
      have e : i + (xs.length + 1) = i + 1 + xs.length := by omega
      rw [e]
      exact h

/-! ## Helper lemmas: base names -/

theorem Base_ne_nil (path : GoString) : Base path ≠ [] := by
  unfold Base
  by_cases h : path = []
  · simp [h, ascii]
  · simp only [h, if_false]
    split
    · simp
    · assumption

theorem maxBase_fold_ge (filenames : List GoString) : ∀ (init : Int),
    init ≤ filenames.foldl
      (fun (max : Int) filename =>
        if ((Base filename).length : Int) > max then ((Base filename).length : Int) else max)
      init ∧
    ∀ f ∈ filenames, ((Base f).length : Int) ≤ filenames.foldl
      (fun (max : Int) filename =>
        if ((Base filename).length : Int) > max then ((Base filename).length : Int) else max)
      init := by
  induction filenames with
  | nil => intro init; simp
  | cons x xs ih =>
    intro init
    simp only [List.foldl_cons, List.mem_cons]
    obtain ⟨h1, h2⟩ := ih (if ((Base x).length : Int) > init then ((Base x).length : Int) else init)
    refine ⟨?_, ?_⟩
    · refine le_trans ?_ h1
      split <;> omega
    · intro f hf
      rcases hf with rfl | hf
      · refine le_trans ?_ h1
        split <;> omega
      · exact h2 f hf

theorem maxBaseLength_ge (filenames : List GoString) (f : GoString) (hf : f ∈ filenames) :
    ((Base f).length : Int) ≤ maxBaseLength filenames :=
  (maxBase_fold_ge filenames 0).2 f hf

theorem maxBase_fold_attained (filenames : List GoString) : ∀ (init : Int),
    filenames.foldl
      (fun (max : Int) filename =>
        if ((Base filename).length : Int) > max then ((Base filename).length : Int) else max)
      init = init ∨
    ∃ f ∈ filenames, filenames.foldl
      (fun (max : Int) filename =>
        if ((Base filename).length : Int) > max then ((Base filename).length : Int) else max)
      init = ((Base f).length : Int) := by
  induction filenames with
  | nil => intro init; simp
  | cons x xs ih =>
    intro init
    simp only [List.foldl_cons, List.mem_cons]
    rcases ih (if ((Base x).length : Int) > init then ((Base x).length : Int) else init)
      with h | ⟨f, hf, h⟩
    · by_cases hx : ((Base x).length : Int) > init
      · right
        refine ⟨x, Or.inl rfl, ?_⟩
        rw [h]; simp [hx]
      · left
        rw [h]; simp [hx]
    · right
      exact ⟨f, Or.inr hf, h⟩

theorem maxBaseLength_pos (filenames : List GoString) (hne : filenames ≠ []) :
    0 < maxBaseLength filenames := by
  cases filenames with
  | nil => exact absurd rfl hne
  | cons x xs =>
    have h := maxBaseLength_ge (x :: xs) x (by simp)
    have hx : 0 < (Base x).length := List.length_pos.mpr (Base_ne_nil x)
    omega

theorem maxBaseLength_attained (filenames : List GoString) (hne : filenames ≠ []) :
    ∃ f ∈ filenames, maxBaseLength filenames = ((Base f).length : Int) := by
  rcases maxBase_fold_attained filenames 0 with h | h
  · have := maxBaseLength_pos filenames hne
    unfold maxBaseLength at this
    omega
  · exact h

/-! ## Helper lemmas: configurations and the palette -/

theorem Colors_mem_ne (c : AnsiColor) (h : c ∈ Colors) : c ≠ AutoColor ∧ c ≠ NoColor := by
  simp only [Colors, List.mem_cons, List.mem_singleton, List.not_mem_nil, or_false] at h
  rcases h with h | h | h | h | h | h <;> subst h <;> constructor <;> decide

theorem Colors_get_index (k : Nat) (h : k % Colors.length < Colors.length) :
    Colors[k % 6]? = some (Colors.get ⟨k % Colors.length, h⟩) := by
  have h6 : Colors.length = 6 := rfl
  have hk : k % 6 < Colors.length := by rw [h6]; exact Nat.mod_lt _ (by decide)
  rw [List.getElem?_eq_getElem hk]
  rfl

theorem color_mem (basename : GoString) : color basename ∈ Colors :=
  List.get_mem _ _ _

theorem withWidth_fields (filenames : List GoString) (config : NTailConfig) :
    (withWidth filenames config).Config = config.Config ∧
    (withWidth filenames config).Lines = config.Lines ∧
    (withWidth filenames config).PrintFilename = config.PrintFilename ∧
    (withWidth filenames config).Color = config.Color := by
  unfold withWidth
  split <;> simp

theorem withColor_fields (config : NTailConfig) (cc : Bool) (i : Nat) :
    (withColor config cc i).Config = config.Config ∧
    (withColor config cc i).Lines = config.Lines ∧
    (withColor config cc i).PrintFilename = config.PrintFilename ∧
    (withColor config cc i).FilenameWidth = config.FilenameWidth := by
  unfold withColor
  split <;> simp

theorem withColor_auto_index (config : NTailConfig) (i : Nat) (h : config.Color = AutoColor) :
    (withColor config false i).Color
      = Colors.get ⟨i % Colors.length, Nat.mod_lt _ (by decide)⟩ := by
  simp [withColor, h]

theorem withColor_consistent (config : NTailConfig) (i : Nat) :
    (withColor config true i).Color = config.Color := by
  simp [withColor]

theorem withColor_of_ne_auto (config : NTailConfig) (cc : Bool) (i : Nat)
    (h : config.Color ≠ AutoColor) : (withColor config cc i).Color = config.Color := by
  simp [withColor, h]

theorem withDefaultLines_lines_eq (c d : NTailConfig) (h : c.Lines = d.Lines) :
    (withDefaultLines c).Lines = (withDefaultLines d).Lines := by
  unfold withDefaultLines
  by_cases h0 : c.Lines = 0
  · have h1 : d.Lines = 0 := by rw [← h]; exact h0
    simp [h0, h1]
  · have h1 : ¬ d.Lines = 0 := by rw [← h]; exact h0
    simp [h0, h1, h]

/-! ## Helper lemmas: printing -/

theorem printLoop_accepting {σ : Type} (w : Writer σ) (header : GoString)
    (haccept : ∀ (st : σ) (p : GoString), (w.write st p).2 = none) :
    ∀ (events : List Line) (s : σ),
      printLoop w header events s =
        ((events.takeWhile (fun l => l.Err.isNone)).foldl
            (fun st l => (w.write st (header ++ l.Text ++ [NL])).1) s,
          (events.find? (fun l => l.Err.isSome)).bind (fun l => l.Err)) := by
  intro events
  induction events with
  | nil => intro s; rfl
  | cons l rest ih =>
    intro s
    cases hE : l.Err with
    | some e => simp [printLoop, hE]
    | none =>
      have hw := haccept s (header ++ l.Text ++ [NL])
      cases hres : w.write s (header ++ l.Text ++ [NL]) with
      | mk s1 r =>
        rw [hres] at hw
        simp only at hw
        subst hw
        simp only [printLoop, hE, hres, ih s1, List.takeWhile_cons, Option.isNone_none,
          List.foldl_cons, List.find?_cons, Option.isSome_none, if_true]

theorem foldl_recorder (header : GoString) (events : List Line) :
    ∀ (log : List GoString),
      events.foldl (fun st l => (recorder.write st (header ++ l.Text ++ [NL])).1) log
        = log ++ events.map (fun l => header ++ l.Text ++ [NL]) := by
  induction events with
  | nil => intro log; simp
  | cons l rest ih =>
    intro log
    simp only [List.foldl_cons, List.map_cons]
    rw [ih]
    simp [recorder]

/-! ## Helper lemmas: rune counting and padding -/

theorem runeLen_le (s : List Nat) : runeLen s ≤ s.length := by
  rcases s with _ | ⟨c, _ | ⟨c1, _ | ⟨c2, _ | ⟨c3, r⟩⟩⟩⟩ <;>
    simp only [runeLen, List.length_cons, List.length_nil] <;>
    first
      | omega
      | (split_ifs <;> omega)

theorem runeLen_pos (c : Nat) (rest : List Nat) : 1 ≤ runeLen (c :: rest) := by
  rcases rest with _ | ⟨c1, _ | ⟨c2, _ | ⟨c3, r⟩⟩⟩ <;>
    simp only [runeLen] <;>
    first
      | omega
      | (split_ifs <;> omega)

theorem runeLen_append_ascii (c : Nat) (rest t : List Nat) (ht : ∀ b ∈ t, b < 128) :
    runeLen (c :: rest ++ t) = runeLen (c :: rest) := by
  rcases rest with _ | ⟨c1, _ | ⟨c2, _ | ⟨c3, r⟩⟩⟩
  · rcases t with _ | ⟨t0, _ | ⟨t1, _ | ⟨t2, tr⟩⟩⟩
    · rfl
    all_goals
      have h0 := ht t0 (by simp)
      simp only [runeLen, List.cons_append, List.nil_append]
      first
        | rfl
        | omega
        | (split_ifs <;> omega)
  · rcases t with _ | ⟨t0, _ | ⟨t1, tr⟩⟩
    · rfl
    all_goals
      have h0 := ht t0 (by simp)
      simp only [runeLen, List.cons_append, List.nil_append]
      first
        | rfl
        | omega
        | (split_ifs <;> omega)
  · rcases t with _ | ⟨t0, tr⟩
    · rfl
    · have h0 := ht t0 (by simp)
      simp only [runeLen, List.cons_append, List.nil_append]
      first
        | rfl
        | omega
        | (split_ifs <;> omega)
  · simp only [runeLen, List.cons_append]

theorem runeCountFrom_le (s : List Nat) : ∀ k, runeCountFrom k s ≤ s.length := by
  induction s with
  | nil => intro k; simp [runeCountFrom]
  | cons c rest ih =>
    intro k
    cases k with
    | zero =>
      simp only [runeCountFrom, List.length_cons]
      have := ih (runeLen (c :: rest) - 1)
      omega
    | succ k =>
      simp only [runeCountFrom, List.length_cons]
      have := ih k
      omega

theorem RuneCountInString_le (s : GoString) : RuneCountInString s ≤ s.length :=
  runeCountFrom_le s 0

theorem runeCountFrom_ascii (t : List Nat) (ht : ∀ b ∈ t, b < 128) :
    runeCountFrom 0 t = t.length := by
  induction t with
  | nil => rfl
  | cons b rest ih =>
    have hb : b < 128 := ht b (by simp)
    have hl : runeLen (b :: rest) = 1 := by
      have : b < 0xC2 := by omega
      simp [runeLen, this]
    simp only [runeCountFrom, hl, List.length_cons]
    rw [ih (fun x hx => ht x (by simp [hx]))]
    omega

theorem runeCountFrom_append_ascii (t : List Nat) (ht : ∀ b ∈ t, b < 128) :
    ∀ (s : List Nat) (k : Nat), k ≤ s.length →
      runeCountFrom k (s ++ t) = runeCountFrom k s + t.length := by
  intro s
  induction s with
  | nil =>
    intro k hk
    have : k = 0 := by simpa using hk
    subst this
    simp [runeCountFrom_ascii t ht, runeCountFrom]
  | cons c rest ih =>
    intro k hk
    cases k with
    | zero =>
      have hl := runeLen_append_ascii c rest t ht
      have hle := runeLen_le (c :: rest)
      simp only [List.length_cons] at hle
      have e : (c :: rest) ++ t = c :: (rest ++ t) := rfl
      rw [e]
      simp only [runeCountFrom]
      rw [← e, hl, ih (runeLen (c :: rest) - 1) (by omega)]
      omega
    | succ k =>
      simp only [List.length_cons] at hk
      have e : (c :: rest) ++ t = c :: (rest ++ t) := rfl
      rw [e]
      simp only [runeCountFrom]
      exact ih k (by omega)

theorem RuneCountInString_append_ascii (s t : GoString) (ht : ∀ b ∈ t, b < 128) :
    RuneCountInString (s ++ t) = RuneCountInString s + t.length :=
  runeCountFrom_append_ascii t ht s 0 (Nat.zero_le _)

theorem RuneCountInString_replicate_append (n : Nat) (s : GoString) :
    RuneCountInString (List.replicate n 32 ++ s) = n + RuneCountInString s := by
  induction n with
  | zero => simp
  | succ n ih =>
    have e : List.replicate (n + 1) 32 ++ s = 32 :: (List.replicate n 32 ++ s) := rfl
    have hl : runeLen (32 :: (List.replicate n 32 ++ s)) = 1 := by simp [runeLen]
    rw [e]
    unfold RuneCountInString at ih ⊢
    simp only [runeCountFrom, hl]
    rw [ih]
    omega

/-! ## Helper lemmas: headers -/

theorem ascii_colon_space_lt : ∀ b ∈ ascii ": ", b < 128 := by decide

theorem header_plain (nt : NTail) (basename : GoString)
    (hpf : nt.Config.PrintFilename = true) (hnc : nt.Config.Color = NoColor)
    (h0 : 0 ≤ nt.Config.FilenameWidth) (h1 : nt.Config.FilenameWidth ≤ fmtMaxWidth) :
    nt.header basename
      = List.replicate (nt.Config.FilenameWidth.toNat - RuneCountInString basename) 32
          ++ basename ++ ascii ": " := by
  have hA : ¬ (nt.Config.FilenameWidth > fmtMaxWidth ∨ nt.Config.FilenameWidth < -fmtMaxWidth) := by
    unfold fmtMaxWidth at h1 ⊢
    omega
  have hB : ¬ (nt.Config.FilenameWidth < 0) := by omega
  simp only [NTail.header, hpf, hnc, fmtStarS, hA, hB, if_false, Bool.not_true, ne_eq,
    not_true_eq_false, Bool.false_eq_true]

theorem header_badwidth (nt : NTail) (basename : GoString)
    (hpf : nt.Config.PrintFilename = true) (hnc : nt.Config.Color = NoColor)
    (h1 : fmtMaxWidth < nt.Config.FilenameWidth) :
    nt.header basename = ascii "%!(BADWIDTH)" ++ basename ++ ascii ": " := by
  have hA : nt.Config.FilenameWidth > fmtMaxWidth ∨ nt.Config.FilenameWidth < -fmtMaxWidth :=
    Or.inl h1
  simp only [NTail.header, hpf, hnc, fmtStarS, hA, if_true, if_false, Bool.not_true, ne_eq,
    not_true_eq_false, Bool.false_eq_true]

theorem RuneCountInString_padded (k : Nat) (basename : GoString) :
    RuneCountInString (List.replicate k 32 ++ basename ++ ascii ": ")
      = k + RuneCountInString basename + 2 := by
  rw [RuneCountInString_append_ascii _ _ ascii_colon_space_lt,
    RuneCountInString_replicate_append]
  rfl

/-! ## Helper lemmas: a name wider than fmt accepts -/

theorem wideName_length (n : Nat) : (wideName n).length = n :=
  List.length_replicate _ _

theorem wideName_ne_nil (n : Nat) (hn : 0 < n) : wideName n ≠ [] := by
  intro h
  have := congrArg List.length h
  rw [wideName_length, List.length_nil] at this
  omega

theorem Base_wideName (n : Nat) (hn : 0 < n) : Base (wideName n) = wideName n := by
  have h1 := wideName_ne_nil n hn
  have hsep : (97 : Nat) ≠ Separator := by decide
  unfold Base
  rw [if_neg h1]
  unfold wideName at h1 ⊢
  simp only [List.reverse_replicate, List.dropWhile_replicate, List.takeWhile_replicate,
    decide_eq_true_eq, hsep, if_false, ne_eq, not_false_eq_true, if_true]
  rw [if_neg h1]

theorem maxBaseLength_wideName (n : Nat) (hn : 0 < n) :
    maxBaseLength [wideName n] = (n : Int) := by
  simp only [maxBaseLength, List.foldl, Base_wideName n hn, wideName_length]
  rw [if_pos]
  exact_mod_cast hn

theorem wideName_ascii (n : Nat) : ∀ b ∈ wideName n, b < 128 := by
  intro b hb
  have := List.eq_of_mem_replicate hb
  omega

theorem RuneCountInString_wideName (n : Nat) : RuneCountInString (wideName n) = n := by
  unfold RuneCountInString
  rw [runeCountFrom_ascii (wideName n) (wideName_ascii n), wideName_length]

theorem NewNTails_wideName (n : Nat) (hn : 0 < n) :
    NewNTails absentEnv [wideName n] plainReopenConfig false = .ok [wideTarget n] := by
  have hl : ∀ k, lastLinesPos absentEnv.fs (wideName n) k = .error .notExist := fun _ => rfl
  have hw : withWidth [wideName n] plainReopenConfig
      = { plainReopenConfig with FilenameWidth := (n : Int) } := by
    simp only [withWidth, maxBaseLength_wideName n hn]
    rfl
  have hc : withColor { plainReopenConfig with FilenameWidth := (n : Int) } false 0
      = { plainReopenConfig with FilenameWidth := (n : Int) } := by
    rfl
  have hpos : ¬ ((n : Int) ≤ 0) := by
    have : (0 : Int) < n := by exact_mod_cast hn
    omega
  have hn2 : NewNTail absentEnv (wideName n) { plainReopenConfig with FilenameWidth := (n : Int) }
      = .ok (wideTarget n) := by
    have hd : withDefaultLines { plainReopenConfig with FilenameWidth := (n : Int) }
        = { plainReopenConfig with FilenameWidth := (n : Int) } := by
      unfold withDefaultLines
      rw [if_neg]
      exact (by decide : ¬ ((10 : Nat) = 0))
    have hcol : ¬ (NoColor = AutoColor) := by decide
    rw [NewNTail_eq, hd, hl]
    dsimp only [startAt, TailFile, absentEnv, plainReopenConfig, reopenConfig, mainConfig,
      wideTarget]
    rw [if_neg hpos, if_neg hcol]
    rfl
  unfold NewNTails
  rw [hw]
  simp only [newNTailsLoop, hc, hn2, List.nil_append]

theorem ascii_badwidth_lt : ∀ b ∈ ascii "%!(BADWIDTH)", b < 128 := by decide

theorem wideTarget_header (n : Nat) (hn : 1000000 < n) :
    (wideTarget n).header (Base (wideTarget n).Tail.Filename)
      = ascii "%!(BADWIDTH)" ++ wideName n ++ ascii ": " := by
  have hbase : Base (wideTarget n).Tail.Filename = wideName n := Base_wideName n (by omega)
  rw [hbase]
  apply header_badwidth (wideTarget n) (wideName n) rfl rfl
  show fmtMaxWidth < (n : Int)
  unfold fmtMaxWidth
  exact_mod_cast hn

theorem wideTarget_header_runes (n : Nat) (hn : 1000000 < n) :
    RuneCountInString ((wideTarget n).header (Base (wideTarget n).Tail.Filename)) = n + 14 := by
  rw [wideTarget_header n hn, RuneCountInString_append_ascii _ _ ascii_colon_space_lt]
  have hall : ∀ b ∈ ascii "%!(BADWIDTH)" ++ wideName n, b < 128 := by
    intro b hb
    rcases List.mem_append.mp hb with h | h
    · exact ascii_badwidth_lt b h
    · exact wideName_ascii n b h
  unfold RuneCountInString
  rw [runeCountFrom_ascii _ hall, List.length_append, wideName_length]
  have h12 : (ascii "%!(BADWIDTH)").length = 12 := by decide
  have h2 : (ascii ": ").length = 2 := by decide
  omega

/-! ## Helper lemmas: the range of the offset and the whole-file case -/

theorem scanLoop_le (f : File) : ∀ (pos : Nat) (c : Int) (p : Nat),
    scanLoop f pos c = .ok p → p ≤ pos := by
  intro pos
  induction pos with
  | zero =>
    intro c p h
    simp only [scanLoop] at h
    injection h with h
    omega
  | succ pos ih =>
    intro c p h
    by_cases hc : 0 ≤ c
    · simp only [scanLoop, hc, if_true] at h
      cases hs : f.seek pos with
      | error e => simp [hs] at h
      | ok q =>
        simp only [hs] at h
        cases hr : f.read q with
        | error e => simp [hr] at h
        | ok b =>
          simp only [hr] at h
          exact Nat.le_succ_of_le (ih _ p h)
    · simp only [scanLoop, hc, if_false] at h
      injection h with h
      omega

theorem scanLoop_lt (f : File) (pos : Nat) (c : Int) (p : Nat) (hpos : 0 < pos) (hc : 0 ≤ c)
    (h : scanLoop f pos c = .ok p) : p < pos := by
  cases pos with
  | zero => omega
  | succ pos =>
    simp only [scanLoop, hc, if_true] at h
    cases hs : f.seek pos with
    | error e => simp [hs] at h
    | ok q =>
      simp only [hs] at h
      cases hr : f.read q with
      | error e => simp [hr] at h
      | ok b =>
        simp only [hr] at h
        exact Nat.lt_succ_of_le (scanLoop_le f pos _ p h)

/-- For a line count whose conversion `int(n)` is not negative, an offset that
`lastLinesPos` returns on an opened file lies between 0 and the size. -/
theorem lastLinesPosFile_offset_bound (f : File) (n : Nat) (off : Int)
    (hn : n % 2 ^ 64 < 2 ^ 63) (hsize : f.data.length < 2 ^ 63)
    (h : lastLinesPosFile f n = .ok off) :
    0 ≤ off ∧ off ≤ (f.data.length : Int) := by
  unfold lastLinesPosFile File.stat at h
  cases hst : f.statErr with
  | some e => simp [hst] at h
  | none =>
    simp only [hst] at h
    by_cases h0 : f.data.length = 0
    · simp only [h0, if_true] at h
      injection h with h
      omega
    · simp only [h0, if_false] at h
      cases hs : f.seek (f.data.length - 1) with
      | error e => simp [hs] at h
      | ok q =>
        simp only [hs] at h
        cases hl : scanLoop f f.data.length (intOfUint n) with
        | error e => simp [hl] at h
        | ok p =>
          simp only [hl] at h
          injection h with h
          have hc : 0 ≤ intOfUint n := by
            have h1 : intOfUint n = ((n % 2 ^ 64 : Nat) : Int) := by
              unfold intOfUint
              exact wrapInt64_of_range _ (Int.natCast_nonneg _) (by exact_mod_cast hn)
            rw [h1]
            exact Int.natCast_nonneg _
          have hp := scanLoop_lt f f.data.length (intOfUint n) p (by omega) hc hl
          have hp2 : p + 1 < 2 ^ 63 := by omega
          have hp3 : ((p : Int) + 1) < 2 ^ 63 := by exact_mod_cast hp2
          rw [wrapInt64_of_range _ (by omega) hp3] at h
          rw [← h]
          constructor
          · omega
          · exact_mod_cast hp

/-- For a line count of 2^63 or more, `int(n)` is negative, the loop is not
entered, and `lastLinesPos` returns the size plus one on a non-empty file. -/
theorem lastLinesPos_past_end (fs : FileSystem) (filename : GoString) (content : List Nat)
    (n : Nat) (hopen : fs filename = .ok (File.regular content)) (hne : content ≠ [])
    (hsize : content.length + 1 < 2 ^ 63) (hn0 : 2 ^ 63 ≤ n) (hn1 : n < 2 ^ 64) :
    lastLinesPos fs filename n = .ok ((content.length : Int) + 1) := by
  rw [lastLinesPos_regular fs filename content n hopen hne,
    scanBack_neg content content.length _ (intOfUint_neg_of_ge n hn0 hn1),
    wrapInt64_of_range _ (by positivity) (by exact_mod_cast hsize)]

/-- When the counter is at least the number of newlines below `pos`, the scan
reaches the beginning of the file. -/
theorem scanBack_zero (data : List Nat) : ∀ (pos : Nat) (c : Int), pos ≤ data.length →
    (((data.take pos).count NL : Nat) : Int) ≤ c → scanBack data pos c = 0 := by
  intro pos
  induction pos with
  | zero => intro c _ _; rfl
  | succ pos ih =>
    intro c hpos hcount
    have hlt : pos < data.length := hpos
    have htake : data.take (pos + 1) = data.take pos ++ [data[pos]] := by
      rw [List.take_succ, List.getElem?_eq_getElem hlt]
      rfl
    rw [htake, List.count_append] at hcount
    have hget : data.get? pos = some data[pos] := by
      rw [List.get?_eq_getElem?, List.getElem?_eq_getElem hlt]
    have hc : 0 ≤ c := by
      have : (0 : Int) ≤ ((List.count NL (List.take pos data) + List.count NL [data[pos]] : Nat) : Int) :=
        Int.natCast_nonneg _
      omega
    simp only [scanBack, hc, if_true, hget]
    apply ih _ (Nat.le_of_lt hlt)
    by_cases hb : data[pos] = NL
    · have h1 : List.count NL [data[pos]] = 1 := by simp [hb]
      rw [h1] at hcount
      simp only [hb, if_true]
      push_cast at hcount
      omega
    · have h1 : List.count NL [data[pos]] = 0 := by
        simp [List.count_singleton]
        exact hb
      rw [h1] at hcount
      have hne : ¬ (some data[pos] = some NL) := fun h => hb (Option.some.inj h)
      simp only [hne, if_false]
      simpa using hcount

theorem count_nl_joinLines (lines : List (List Nat)) (hlines : ∀ l ∈ lines, NL ∉ l) :
    (joinLines lines).count NL = lines.length := by
  induction lines with
  | nil => rfl
  | cons x xs ih =>
    have e : joinLines (x :: xs) = x ++ [NL] ++ joinLines xs := by simp [joinLines]
    rw [e, List.count_append, List.count_append, ih (fun l hl => hlines l (by simp [hl]))]
    have hx : List.count NL x = 0 := List.count_eq_zero.mpr (hlines x (by simp))
    rw [hx]
    simp
    omega

/-- On a non-empty file of M newline-terminated lines and for N ≥ M (below
2^63), `lastLinesPos` returns offset 1. -/
theorem lastLinesPos_whole_file (fs : FileSystem) (filename : GoString)
    (lines : List (List Nat)) (N : Nat)
    (hopen : fs filename = .ok (File.regular (joinLines lines)))
    (hlines : ∀ l ∈ lines, NL ∉ l) (hne : lines ≠ [])
    (hN : lines.length ≤ N) (hN63 : N < 2 ^ 63) :
    lastLinesPos fs filename N = .ok 1 := by
  have hM := length_le_joinLines lines
  have hpos : 0 < lines.length := List.length_pos.mpr hne
  have hne2 : joinLines lines ≠ [] := by
    intro h
    rw [h] at hM
    have : lines.length ≤ 0 := hM
    omega
  rw [lastLinesPos_regular fs filename _ N hopen hne2, intOfUint_of_lt N hN63]
  have hz : scanBack (joinLines lines) (joinLines lines).length (N : Int) = 0 := by
    apply scanBack_zero _ _ _ (le_refl _)
    rw [List.take_length, count_nl_joinLines lines hlines]
    exact_mod_cast hN
  rw [hz]
  rfl

/-! ## Helper lemmas: a file whose last line is unterminated -/

theorem scanBack_joinLines_suffix (lines : List (List Nat)) (N : Nat) (suf : List Nat)
    (hlines : ∀ l ∈ lines, NL ∉ l) (hN : N < lines.length) :
    scanBack (joinLines lines ++ suf) (joinLines lines).length (N : Int) + 1
      = (joinLines (lines.take (lines.length - N))).length := by
  have hsplit : lines = lines.take (lines.length - N) ++ lines.drop (lines.length - N) :=
    (List.take_append_drop _ _).symm
  have hdroplen : (lines.drop (lines.length - N)).length = N := by
    rw [List.length_drop]; omega
  rcases List.eq_nil_or_concat (lines.take (lines.length - N)) with h | ⟨T, l, h⟩
  · have : (lines.take (lines.length - N)).length = 0 := by rw [h]; rfl
    rw [List.length_take] at this
    omega
  · rw [List.concat_eq_append] at h
    have hl : NL ∉ l := hlines l (List.mem_of_mem_take (by rw [h]; simp))
    have hB : ∀ x ∈ lines.drop (lines.length - N), NL ∉ x := fun x hx =>
      hlines x (List.mem_of_mem_drop hx)
    have hcontent : joinLines lines
        = (joinLines T ++ l) ++ NL :: joinLines (lines.drop (lines.length - N)) := by
      conv_lhs => rw [hsplit, h]
      rw [joinLines_append, joinLines_append, joinLines_singleton]
      simp
    have hdata : joinLines lines ++ suf
        = (joinLines T ++ l) ++ NL :: (joinLines (lines.drop (lines.length - N)) ++ suf) := by
      rw [hcontent]; simp
    have hlen : (joinLines lines).length
        = (joinLines T ++ l).length + 1 + (joinLines (lines.drop (lines.length - N))).length := by
      rw [hcontent]; simp; omega
    have hscan := scanBack_lines (lines.drop (lines.length - N)) (joinLines T ++ l) suf (N : Int)
      hB (by rw [hdroplen])
    rw [hlen, hdata, hscan, h, joinLines_append, joinLines_singleton]
    simp
    omega

/-- On a file of terminated lines followed by a non-empty unterminated last
line, and for N less than the number of terminated lines, the bytes from the
offset `lastLinesPos` returns are the last N terminated lines and the
unterminated line: N + 1 lines. -/
theorem lastLinesPos_unterminated (fs : FileSystem) (filename : GoString)
    (lines : List (List Nat)) (last : List Nat) (N : Nat)
    (hopen : fs filename = .ok (File.regular (joinLines lines ++ last)))
    (hlines : ∀ l ∈ lines, NL ∉ l) (hlast : NL ∉ last)
    (hsize : (joinLines lines ++ last).length < 2 ^ 63)
    (hN : N < lines.length) :
    lastLinesPos fs filename N
        = .ok (((joinLines (lines.take (lines.length - N))).length : Nat) : Int) ∧
      (joinLines lines ++ last).drop (joinLines (lines.take (lines.length - N))).length
        = joinLines (lines.drop (lines.length - N)) ++ last := by
  have hM := length_le_joinLines lines
  have hne : joinLines lines ++ last ≠ [] := by
    intro h
    have h2 := congrArg List.length h
    simp only [List.length_append, List.length_nil] at h2
    omega
  have hlen : (joinLines lines ++ last).length = (joinLines lines).length + last.length :=
    List.length_append _ _
  have hN63 : N < 2 ^ 63 := by omega
  have hskip := scanBack_skip last (joinLines lines) [] (N : Int) (Int.natCast_nonneg _) hlast
  simp only [List.append_nil] at hskip
  have hscan := scanBack_joinLines_suffix lines N last hlines hN
  have hle : (joinLines (lines.take (lines.length - N))).length ≤ (joinLines lines).length := by
    have e : joinLines lines = joinLines (lines.take (lines.length - N))
        ++ joinLines (lines.drop (lines.length - N)) := by
      rw [← joinLines_append, List.take_append_drop]
    rw [e, List.length_append]
    omega
  constructor
  · rw [lastLinesPos_regular fs filename _ N hopen hne, intOfUint_of_lt N hN63, hlen, hskip]
    have hcast : ((scanBack (joinLines lines ++ last) (joinLines lines).length (N : Int) : Nat)
        : Int) + 1 = ((joinLines (lines.take (lines.length - N))).length : Int) := by
      exact_mod_cast hscan
    have hlt : (joinLines (lines.take (lines.length - N))).length < 2 ^ 63 := by omega
    rw [hcast, wrapInt64_of_range _ (Int.natCast_nonneg _) (by exact_mod_cast hlt)]
  · have e : joinLines lines ++ last = joinLines (lines.take (lines.length - N))
        ++ (joinLines (lines.drop (lines.length - N)) ++ last) := by
      rw [← List.append_assoc, ← joinLines_append, List.take_append_drop]
    rw [e]
    exact List.drop_left _ _

/-! ## Theorems: lastLinesPos -/

/-- C1: for a file of M newline-terminated lines and N < M, `lastLinesPos`
succeeds, and the bytes from the returned offset to end-of-file are exactly the
concatenation of the last N lines. -/
theorem lastLinesPos_last_lines (fs : FileSystem) (filename : GoString)
    (lines : List (List Nat)) (N : Nat)
    (hopen : fs filename = .ok (File.regular (joinLines lines)))
    (hlines : ∀ l ∈ lines, NL ∉ l)
    (hsize : (joinLines lines).length < 2 ^ 63)
    (hN : N < lines.length) :
    ∃ off : Nat, lastLinesPos fs filename N = .ok (off : Int) ∧
      off = (joinLines (lines.take (lines.length - N))).length ∧
      (joinLines lines).drop off = joinLines (lines.drop (lines.length - N)) := by
  have hM := length_le_joinLines lines
  have hne : joinLines lines ≠ [] := by
    intro h
    rw [h] at hM
    have : lines.length ≤ 0 := hM
    omega
  have hN63 : N < 2 ^ 63 := by omega
  have hscan := scanBack_joinLines lines N hlines hN
  refine ⟨(joinLines (lines.take (lines.length - N))).length, ?_, rfl, ?_⟩
  · rw [lastLinesPos_regular fs filename _ N hopen hne, intOfUint_of_lt N hN63]
    have hle : scanBack (joinLines lines) (joinLines lines).length (N : Int) + 1
        ≤ (joinLines lines).length := by
      have := scanBack_lt (joinLines lines) (joinLines lines).length (N : Int)
        (by omega) (Int.natCast_nonneg _)
      omega
    have hcast : ((scanBack (joinLines lines) (joinLines lines).length (N : Int) : Nat) : Int) + 1
        = ((joinLines (lines.take (lines.length - N))).length : Int) := by
      exact_mod_cast hscan
    have hlt : (joinLines (lines.take (lines.length - N))).length < 2 ^ 63 := by omega
    rw [hcast, wrapInt64_of_range _ (Int.natCast_nonneg _) (by exact_mod_cast hlt)]
  · have e : joinLines lines = joinLines (lines.take (lines.length - N))
        ++ joinLines (lines.drop (lines.length - N)) := by
      rw [← joinLines_append, List.take_append_drop]
    rw [e]
    exact List.drop_left _ _

/-- C1 on the 12 lines "1" .. "12" with N = 10: offset 4 and the lines "3" .. "12". -/
theorem lastLinesPos_last_lines_witness :
    (∃ off : Nat, lastLinesPos (singleFile (ascii "a.log") (joinLines twelveLines))
        (ascii "a.log") 10 = .ok (off : Int) ∧
      off = (joinLines (twelveLines.take (twelveLines.length - 10))).length ∧
      (joinLines twelveLines).drop off
        = joinLines (twelveLines.drop (twelveLines.length - 10))) ∧
    lastLinesPos (singleFile (ascii "a.log") (joinLines twelveLines)) (ascii "a.log") 10
      = .ok 4 ∧
    (joinLines twelveLines).drop 4 = ascii "3\n4\n5\n6\n7\n8\n9\n10\n11\n12\n" :=
  ⟨lastLinesPos_last_lines (singleFile (ascii "a.log") (joinLines twelveLines)) (ascii "a.log")
    twelveLines 10 (by simp [singleFile]) (by decide) (by decide) (by decide),
   by decide, by decide⟩

/-- C10: `lastLinesPos` is antitone in the requested line count: for a file
content and line counts n ≤ m below 2^63, both calls succeed and the offset for
m is at most the offset for n. -/
theorem lastLinesPos_antitone (fs : FileSystem) (filename : GoString) (content : List Nat)
    (n m : Nat) (hopen : fs filename = .ok (File.regular content))
    (hsize : content.length < 2 ^ 63) (hnm : n ≤ m) (hm : m < 2 ^ 63) :
    ∃ a b : Int, lastLinesPos fs filename n = .ok a ∧ lastLinesPos fs filename m = .ok b ∧
      b ≤ a := by
  by_cases hne : content = []
  · subst hne
    refine ⟨0, 0, ?_, ?_, le_refl _⟩ <;>
      simp [lastLinesPos, hopen, lastLinesPosFile, File.stat, File.regular]
  · have hpos : 0 < content.length := List.length_pos.mpr hne
    have hn : n < 2 ^ 63 := lt_of_le_of_lt hnm hm
    refine ⟨_, _, lastLinesPos_regular fs filename content n hopen hne,
      lastLinesPos_regular fs filename content m hopen hne, ?_⟩
    rw [intOfUint_of_lt n hn, intOfUint_of_lt m hm]
    have h1 := scanBack_lt content content.length (n : Int) hpos (Int.natCast_nonneg _)
    have h2 := scanBack_lt content content.length (m : Int) hpos (Int.natCast_nonneg _)
    have h3 := scanBack_antitone content content.length (n : Int) (m : Int)
      (by exact_mod_cast hnm)
    have b1 : scanBack content content.length (n : Int) + 1 < 2 ^ 63 := by omega
    have b2 : scanBack content content.length (m : Int) + 1 < 2 ^ 63 := by omega
    rw [wrapInt64_of_range _ (by positivity) (by exact_mod_cast b2),
      wrapInt64_of_range _ (by positivity) (by exact_mod_cast b1)]
    exact_mod_cast Nat.succ_le_succ h3

/-- C10 on the file "a\nb\nc\n" with n = 1 and m = 2. -/
theorem lastLinesPos_antitone_witness :
    ∃ a b : Int, lastLinesPos (singleFile (ascii "a.log") (ascii "a\nb\nc\n")) (ascii "a.log") 1
        = .ok a ∧
      lastLinesPos (singleFile (ascii "a.log") (ascii "a\nb\nc\n")) (ascii "a.log") 2 = .ok b ∧
      b ≤ a :=
  lastLinesPos_antitone (singleFile (ascii "a.log") (ascii "a\nb\nc\n")) (ascii "a.log")
    (ascii "a\nb\nc\n") 1 2 (by simp [singleFile]) (by decide) (by decide) (by decide)

/-- C2: on the two-line file "a\nb\n", asking for 10 lines (more than the file
has) or for 2 lines (exactly as many) makes `lastLinesPos` return offset 1, not
0: the first byte of the file is left out. -/
theorem lastLinesPos_whole_file_offset :
    lastLinesPos (singleFile (ascii "a.log") (joinLines [ascii "a", ascii "b"]))
        (ascii "a.log") 10 = .ok 1 ∧
    lastLinesPos (singleFile (ascii "a.log") (joinLines [ascii "a", ascii "b"]))
        (ascii "a.log") 2 = .ok 1 ∧
    (joinLines [ascii "a", ascii "b"]).drop 1 = ascii "\nb\n" := by
  decide

/-- C3: on the file "a\nb\nc", whose last line is unterminated, asking for 1
line makes `lastLinesPos` return offset 2; the bytes from there are "b\nc", two
lines. -/
theorem lastLinesPos_unterminated_offset :
    lastLinesPos (singleFile (ascii "a.log") (ascii "a\nb\nc")) (ascii "a.log") 1 = .ok 2 ∧
    (ascii "a\nb\nc").drop 2 = ascii "b\nc" := by
  decide

/-- C4: on the 2-byte file "a\n" with n = 2^63 (where `int(n)` is negative),
`lastLinesPos` returns offset 3, beyond the size of the file. -/
theorem lastLinesPos_offset_past_end :
    lastLinesPos (singleFile (ascii "a.log") (ascii "a\n")) (ascii "a.log") (2 ^ 63) = .ok 3 ∧
    (ascii "a\n").length = 2 := by
  decide

/-! ## Theorems: colours -/

/-- C5: in a successful `NewNTails`, with consistent-color mode off and the
configured colour `AutoColor`, the target at input position i has the colour
`Colors[i mod 6]`, whatever its file name; with the configured colour `NoColor`
every target has `NoColor`, whatever the index, the name and the
consistent-color flag. -/
theorem NewNTails_color_by_index (env : Env) (filenames : List GoString)
    (config : NTailConfig) (cc : Bool) (ts : List NTail)
    (hok : NewNTails env filenames config cc = .ok ts) :
    ts.length = filenames.length ∧
    ∀ (i : Nat) (nt : NTail), ts[i]? = some nt →
      filenames[i]? = some nt.Tail.Filename ∧
      (config.Color = AutoColor → cc = false → Colors[i % 6]? = some nt.Config.Color) ∧
      (config.Color = NoColor → nt.Config.Color = NoColor) := by
  obtain ⟨hlen, hall⟩ := NewNTails_ok env filenames config cc ts hok
  refine ⟨hlen, ?_⟩
  intro i nt hi
  have hilt : i < filenames.length := by
    rw [← hlen]
    exact (List.getElem?_eq_some.mp hi).1
  obtain ⟨nt2, h1, h2⟩ := hall i filenames[i] (List.getElem?_eq_getElem hilt)
  have hnt : nt2 = nt := by
    rw [hi] at h1
    exact (Option.some.inj h1).symm
  subst hnt
  obtain ⟨hname, hcol, _, _⟩ := NewNTail_ok env _ _ nt2 h2
  have hwc := (withWidth_fields filenames config).2.2.2
  refine ⟨?_, ?_, ?_⟩
  · rw [hname]
    exact List.getElem?_eq_getElem hilt
  · intro hauto hcc
    subst hcc
    have hc : (withColor (withWidth filenames config) false i).Color
        = Colors.get ⟨i % Colors.length, Nat.mod_lt _ (by decide)⟩ :=
      withColor_auto_index _ i (by rw [hwc]; exact hauto)
    have hne : (withColor (withWidth filenames config) false i).Color ≠ AutoColor := by
      rw [hc]
      exact (Colors_mem_ne _ (List.get_mem _ _ _)).1
    rw [if_neg hne, hc] at hcol
    rw [hcol]
    exact Colors_get_index i _
  · intro hno
    have hne : (withWidth filenames config).Color ≠ AutoColor := by
      rw [hwc, hno]; decide
    have hc := withColor_of_ne_auto _ cc i hne
    rw [hwc, hno] at hc
    have hne2 : (withColor (withWidth filenames config) cc i).Color ≠ AutoColor := by
      rw [hc]; decide
    rw [if_neg hne2, hc] at hcol
    exact hcol

/-- C5 on the files `a.log` and `bb.log`: automatic colours red and green by
position. -/
theorem NewNTails_color_by_index_witness :
    ([(⟨⟨ascii "a.log", [], { mainConfig.Config with Location := some ⟨1, 0⟩ }⟩,
          { mainConfig with Config := { mainConfig.Config with Location := some ⟨1, 0⟩ }
                            FilenameWidth := 6, Color := ColorRed }⟩ : NTail),
       ⟨⟨ascii "bb.log", [], { mainConfig.Config with Location := some ⟨1, 0⟩ }⟩,
          { mainConfig with Config := { mainConfig.Config with Location := some ⟨1, 0⟩ }
                            FilenameWidth := 6, Color := ColorGreen }⟩].length
        = [ascii "a.log", ascii "bb.log"].length) ∧
    ∀ (i : Nat) (nt : NTail),
      [(⟨⟨ascii "a.log", [], { mainConfig.Config with Location := some ⟨1, 0⟩ }⟩,
          { mainConfig with Config := { mainConfig.Config with Location := some ⟨1, 0⟩ }
                            FilenameWidth := 6, Color := ColorRed }⟩ : NTail),
       ⟨⟨ascii "bb.log", [], { mainConfig.Config with Location := some ⟨1, 0⟩ }⟩,
          { mainConfig with Config := { mainConfig.Config with Location := some ⟨1, 0⟩ }
                            FilenameWidth := 6, Color := ColorGreen }⟩][i]? = some nt →
      [ascii "a.log", ascii "bb.log"][i]? = some nt.Tail.Filename ∧
      (mainConfig.Color = AutoColor → false = false → Colors[i % 6]? = some nt.Config.Color) ∧
      (mainConfig.Color = NoColor → nt.Config.Color = NoColor) :=
  NewNTails_color_by_index (quietEnv twoFiles) [ascii "a.log", ascii "bb.log"] mainConfig false _
    (by decide)

/-- C6: in consistent-color mode with the configured colour `AutoColor`, the
colour of a target is `Colors[adler32(basename) mod 6]`: two paths with the same
base name get the same colour at any two positions of any two runs, and the
colour is one of the 6 palette colours, never `AutoColor` or `NoColor`. -/
theorem NewNTails_consistent_color (env1 env2 : Env) (names1 names2 : List GoString)
    (config1 config2 : NTailConfig) (ts1 ts2 : List NTail) (i j : Nat) (f g : GoString)
    (hok1 : NewNTails env1 names1 config1 true = .ok ts1)
    (hok2 : NewNTails env2 names2 config2 true = .ok ts2)
    (hauto1 : config1.Color = AutoColor) (hauto2 : config2.Color = AutoColor)
    (hf : names1[i]? = some f) (hg : names2[j]? = some g) (hbase : Base f = Base g) :
    ∃ nt1 nt2 : NTail, ts1[i]? = some nt1 ∧ ts2[j]? = some nt2 ∧
      nt1.Config.Color = nt2.Config.Color ∧
      Colors[adler32 (Base f) % 6]? = some nt1.Config.Color ∧
      nt1.Config.Color ∈ Colors ∧ nt1.Config.Color ≠ AutoColor ∧ nt1.Config.Color ≠ NoColor := by
  have key : ∀ (env : Env) (names : List GoString) (config : NTailConfig) (ts : List NTail)
      (k : Nat) (h : GoString), NewNTails env names config true = .ok ts →
      config.Color = AutoColor → names[k]? = some h →
      ∃ nt : NTail, ts[k]? = some nt ∧ nt.Config.Color = color (Base h) := by
    intro env names config ts k h hok hauto hh
    obtain ⟨_, hall⟩ := NewNTails_ok env names config true ts hok
    obtain ⟨nt, h1, h2⟩ := hall k h hh
    obtain ⟨_, hcol, _, _⟩ := NewNTail_ok env _ _ nt h2
    have hc : (withColor (withWidth names config) true k).Color = AutoColor := by
      rw [withColor_consistent, (withWidth_fields names config).2.2.2, hauto]
    rw [if_pos hc] at hcol
    exact ⟨nt, h1, hcol⟩
  obtain ⟨nt1, h1, c1⟩ := key env1 names1 config1 ts1 i f hok1 hauto1 hf
  obtain ⟨nt2, h2, c2⟩ := key env2 names2 config2 ts2 j g hok2 hauto2 hg
  refine ⟨nt1, nt2, h1, h2, ?_, ?_, ?_, ?_, ?_⟩
  · rw [c1, c2, hbase]
  · rw [c1]
    exact Colors_get_index _ _
  · rw [c1]; exact color_mem _
  · rw [c1]; exact (Colors_mem_ne _ (color_mem _)).1
  · rw [c1]; exact (Colors_mem_ne _ (color_mem _)).2

/-- C6 on `a.log` at position 0 of one run and `/tmp/x/a.log` at position 1 of
another: both targets are magenta, `Colors[adler32("a.log") mod 6]`. -/
theorem NewNTails_consistent_color_witness :
    (∃ nt1 nt2 : NTail,
      [(⟨⟨ascii "a.log", [], { mainConfig.Config with Location := some ⟨1, 0⟩ }⟩,
          { mainConfig with Config := { mainConfig.Config with Location := some ⟨1, 0⟩ }
                            FilenameWidth := 6, Color := ColorMagenta }⟩ : NTail),
       ⟨⟨ascii "bb.log", [], { mainConfig.Config with Location := some ⟨1, 0⟩ }⟩,
          { mainConfig with Config := { mainConfig.Config with Location := some ⟨1, 0⟩ }
                            FilenameWidth := 6, Color := ColorGreen }⟩][0]? = some nt1 ∧
      [(⟨⟨ascii "bb.log", [], { mainConfig.Config with Location := some ⟨1, 0⟩ }⟩,
          { mainConfig with Config := { mainConfig.Config with Location := some ⟨1, 0⟩ }
                            FilenameWidth := 6, Color := ColorGreen }⟩ : NTail),
       ⟨⟨ascii "/tmp/x/a.log", [], { mainConfig.Config with Location := some ⟨1, 0⟩ }⟩,
          { mainConfig with Config := { mainConfig.Config with Location := some ⟨1, 0⟩ }
                            FilenameWidth := 6, Color := ColorMagenta }⟩][1]? = some nt2 ∧
      nt1.Config.Color = nt2.Config.Color ∧
      Colors[adler32 (Base (ascii "a.log")) % 6]? = some nt1.Config.Color ∧
      nt1.Config.Color ∈ Colors ∧ nt1.Config.Color ≠ AutoColor ∧ nt1.Config.Color ≠ NoColor) ∧
    adler32 (ascii "a.log") = 1323 * 65536 + 466 ∧
    color (ascii "a.log") = ColorMagenta :=
  ⟨NewNTails_consistent_color (quietEnv twoFiles) (quietEnv otherFiles)
      [ascii "a.log", ascii "bb.log"] [ascii "bb.log", ascii "/tmp/x/a.log"]
      mainConfig mainConfig _ _ 0 1 (ascii "a.log") (ascii "/tmp/x/a.log")
      (by decide) (by decide) (by decide) (by decide) (by decide) (by decide) (by decide),
   by decide, by decide⟩

/-! ## Theorems: start offset and construction errors -/

/-- C9: the start offset `NewNTail` hands to the watcher: when `lastLinesPos`
succeeds the watcher is started at the returned offset; when it fails and
`ReOpen` is on, the watcher is started at offset 0; when it fails and `ReOpen`
is off, `NewNTail` returns that error, and `NewNTails`, whose earlier files
were constructed, returns that error and no targets. -/
theorem NewNTail_start_offset (env : Env) (filename : GoString) (config : NTailConfig) :
    (∀ pos : Int, lastLinesPos env.fs filename (withDefaultLines config).Lines = .ok pos →
      NewNTail env filename config = startAt env filename (withDefaultLines config) pos ∧
      ∀ nt, NewNTail env filename config = .ok nt →
        nt.Tail.Config.Location = some { Offset := pos, Whence := SEEK_SET }) ∧
    (∀ e : Error, lastLinesPos env.fs filename (withDefaultLines config).Lines = .error e →
      config.Config.ReOpen = true →
      NewNTail env filename config = startAt env filename (withDefaultLines config) 0 ∧
      ∀ nt, NewNTail env filename config = .ok nt →
        nt.Tail.Config.Location = some { Offset := 0, Whence := SEEK_SET }) ∧
    (∀ e : Error, lastLinesPos env.fs filename (withDefaultLines config).Lines = .error e →
      config.Config.ReOpen = false →
      NewNTail env filename config = .error e ∧
      ∀ (before after : List GoString) (cc : Bool) (ts : List NTail),
        newNTailsLoop env (withWidth (before ++ filename :: after) config) cc 0 before []
          = .ok ts →
        NewNTails env (before ++ filename :: after) config cc = .error e) := by
  have heq := NewNTail_eq env filename config
  refine ⟨?_, ?_, ?_⟩
  · intro pos hpos
    rw [hpos] at heq
    refine ⟨heq, ?_⟩
    intro nt hnt
    rw [heq] at hnt
    exact (startAt_ok env filename _ pos nt hnt).2.1
  · intro e he hre
    rw [he] at heq
    simp only [hre, if_true] at heq
    refine ⟨heq, ?_⟩
    intro nt hnt
    rw [heq] at hnt
    exact (startAt_ok env filename _ 0 nt hnt).2.1
  · intro e he hre
    rw [he] at heq
    simp only [hre] at heq
    refine ⟨heq, ?_⟩
    intro before after cc ts hts
    unfold NewNTails
    rw [newNTailsLoop_append, hts]
    simp only [newNTailsLoop]
    have hcfg : NewNTail env filename
        (withColor (withWidth (before ++ filename :: after) config) cc (0 + before.length))
        = .error e := by
      rw [NewNTail_eq]
      have hl : (withDefaultLines
          (withColor (withWidth (before ++ filename :: after) config) cc (0 + before.length))).Lines
          = (withDefaultLines config).Lines := by
        apply withDefaultLines_lines_eq
        rw [(withColor_fields _ cc _).2.1, (withWidth_fields _ config).2.1]
      have hr : (withColor (withWidth (before ++ filename :: after) config) cc
          (0 + before.length)).Config.ReOpen = false := by
        rw [(withColor_fields _ cc _).1, (withWidth_fields _ config).1, hre]
      rw [hl, he]
      simp only [hr]
      rfl
    rw [hcfg]

/-- C9 on concrete runs: `a.log` is started at the offset `lastLinesPos`
returns; the absent `new.log` is started at 0 under `-F`; without `-F` the
refused `secret.log` makes `NewNTail` and `NewNTails` return its error. -/
theorem NewNTail_start_offset_witness :
    (NewNTail lockedEnv (ascii "a.log") mainConfig
        = startAt lockedEnv (ascii "a.log") (withDefaultLines mainConfig) 1 ∧
      ∀ nt, NewNTail lockedEnv (ascii "a.log") mainConfig = .ok nt →
        nt.Tail.Config.Location = some { Offset := 1, Whence := SEEK_SET }) ∧
    (NewNTail lockedEnv (ascii "new.log") reopenConfig
        = startAt lockedEnv (ascii "new.log") (withDefaultLines reopenConfig) 0 ∧
      ∀ nt, NewNTail lockedEnv (ascii "new.log") reopenConfig = .ok nt →
        nt.Tail.Config.Location = some { Offset := 0, Whence := SEEK_SET }) ∧
    NewNTail lockedEnv (ascii "secret.log") mainConfig = .error (.other 13) ∧
    NewNTails lockedEnv ([ascii "a.log"] ++ ascii "secret.log" :: [ascii "bb.log"]) mainConfig
      false = .error (.other 13) :=
  ⟨(NewNTail_start_offset lockedEnv (ascii "a.log") mainConfig).1 1 (by decide),
   (NewNTail_start_offset lockedEnv (ascii "new.log") reopenConfig).2.1 .notExist (by decide)
     (by decide),
   ((NewNTail_start_offset lockedEnv (ascii "secret.log") mainConfig).2.2 (.other 13)
     (by decide) (by decide)).1,
   ((NewNTail_start_offset lockedEnv (ascii "secret.log") mainConfig).2.2 (.other 13)
     (by decide) (by decide)).2 [ascii "a.log"] [ascii "bb.log"] false
     [⟨⟨ascii "a.log", [], { mainConfig.Config with Location := some ⟨1, 0⟩ }⟩,
       { mainConfig with Config := { mainConfig.Config with Location := some ⟨1, 0⟩ }
                         FilenameWidth := 10, Color := ColorRed }⟩]
     (by decide)⟩

/-! ## Theorems: printing -/

/-- C8: on a finite sequence of line events and a sink that accepts every
write, `Print` performs one write per event that precedes the first
error-carrying event, in order, each with the payload header ++ text ++ "\n"
and the same header; it returns the error of the first error-carrying event,
writing nothing for it or after it, and nil when no event carries an error. -/
theorem Print_writes {σ : Type} (nt : NTail) (w : Writer σ) (s : σ)
    (haccept : ∀ (st : σ) (p : GoString), (w.write st p).2 = none) :
    nt.Print w s =
        ((nt.Tail.Lines.takeWhile (fun l => l.Err.isNone)).foldl
            (fun st l => (w.write st (nt.header (Base nt.Tail.Filename) ++ l.Text ++ [NL])).1) s,
          (nt.Tail.Lines.find? (fun l => l.Err.isSome)).bind (fun l => l.Err)) ∧
    ∀ log : List GoString, nt.Print recorder log =
        (log ++ (nt.Tail.Lines.takeWhile (fun l => l.Err.isNone)).map
            (fun l => nt.header (Base nt.Tail.Filename) ++ l.Text ++ [NL]),
          (nt.Tail.Lines.find? (fun l => l.Err.isSome)).bind (fun l => l.Err)) := by
  refine ⟨printLoop_accepting w _ haccept _ s, ?_⟩
  intro log
  have h := printLoop_accepting recorder (nt.header (Base nt.Tail.Filename))
    (fun _ _ => rfl) nt.Tail.Lines log
  rw [foldl_recorder] at h
  exact h

/-- C8 on a target that delivers "one", "two", an error, "three": two writes,
then the error. -/
theorem Print_writes_witness :
    (sampleTarget.Print recorder [] =
        ((sampleTarget.Tail.Lines.takeWhile (fun l => l.Err.isNone)).foldl
            (fun st l => (recorder.write st
              (sampleTarget.header (Base sampleTarget.Tail.Filename) ++ l.Text ++ [NL])).1) [],
          (sampleTarget.Tail.Lines.find? (fun l => l.Err.isSome)).bind (fun l => l.Err)) ∧
      ∀ log : List GoString, sampleTarget.Print recorder log =
        (log ++ (sampleTarget.Tail.Lines.takeWhile (fun l => l.Err.isNone)).map
            (fun l => sampleTarget.header (Base sampleTarget.Tail.Filename) ++ l.Text ++ [NL]),
          (sampleTarget.Tail.Lines.find? (fun l => l.Err.isSome)).bind (fun l => l.Err))) ∧
    sampleTarget.Print recorder []
      = ([ascii " a.log: one\n", ascii " a.log: two\n"], some (.other 5)) :=
  ⟨Print_writes sampleTarget recorder [] (fun _ _ => rfl), by decide⟩

/-! ## Theorems: the shared header width -/

/-- C7 (as amended): for a non-empty list of input paths, a successful
`NewNTails` with `FilenameWidth` unset gives every target the width W, the
maximum length of `filepath.Base(path)` over the inputs; with `PrintFilename` on,
colour off and W at most 10^6 (the largest width package fmt accepts), the
header of every target is its base name right-justified with spaces to W
characters followed by ": ", W + 2 characters in all, no base name truncated. -/
theorem NewNTails_header_width (env : Env) (filenames : List GoString) (config : NTailConfig)
    (cc : Bool) (ts : List NTail) (hne : filenames ≠ [])
    (hwidth : config.FilenameWidth = 0)
    (hok : NewNTails env filenames config cc = .ok ts) :
    (∃ f ∈ filenames, maxBaseLength filenames = ((Base f).length : Int)) ∧
    (∀ f ∈ filenames, ((Base f).length : Int) ≤ maxBaseLength filenames) ∧
    ts.length = filenames.length ∧
    ∀ (i : Nat) (nt : NTail), ts[i]? = some nt →
      filenames[i]? = some nt.Tail.Filename ∧
      nt.Config.FilenameWidth = maxBaseLength filenames ∧
      (config.PrintFilename = true → config.Color = NoColor →
        maxBaseLength filenames ≤ fmtMaxWidth →
        nt.header (Base nt.Tail.Filename)
          = List.replicate
              ((maxBaseLength filenames).toNat - RuneCountInString (Base nt.Tail.Filename)) 32
            ++ Base nt.Tail.Filename ++ ascii ": " ∧
        RuneCountInString (Base nt.Tail.Filename) ≤ (maxBaseLength filenames).toNat ∧
        (RuneCountInString (nt.header (Base nt.Tail.Filename)) : Int)
          = maxBaseLength filenames + 2) := by
  obtain ⟨hlen, hall⟩ := NewNTails_ok env filenames config cc ts hok
  have hpos := maxBaseLength_pos filenames hne
  refine ⟨maxBaseLength_attained filenames hne, maxBaseLength_ge filenames, hlen, ?_⟩
  intro i nt hi
  have hilt : i < filenames.length := by
    rw [← hlen]
    exact (List.getElem?_eq_some.mp hi).1
  obtain ⟨nt2, h1, h2⟩ := hall i filenames[i] (List.getElem?_eq_getElem hilt)
  have hnt : nt2 = nt := by
    rw [hi] at h1
    exact (Option.some.inj h1).symm
  subst hnt
  obtain ⟨hname, hcol, hwd, hpf⟩ := NewNTail_ok env _ _ nt2 h2
  have hW : (withColor (withWidth filenames config) cc i).FilenameWidth
      = maxBaseLength filenames := by
    rw [(withColor_fields _ cc i).2.2.2]
    simp [withWidth, hwidth]
  have hwd2 : nt2.Config.FilenameWidth = maxBaseLength filenames := by
    rw [hwd, hW, if_neg (by omega)]
  have hmem : filenames[i] ∈ filenames := List.getElem_mem _
  refine ⟨?_, hwd2, ?_⟩
  · rw [hname]
    exact List.getElem?_eq_getElem hilt
  · intro hprint hno hmax
    have hpf2 : nt2.Config.PrintFilename = true := by
      rw [hpf, (withColor_fields _ cc i).2.2.1, (withWidth_fields _ config).2.2.1, hprint]
    have hcol2 : nt2.Config.Color = NoColor := by
      have hne1 : (withWidth filenames config).Color ≠ AutoColor := by
        rw [(withWidth_fields filenames config).2.2.2, hno]; decide
      have hc := withColor_of_ne_auto _ cc i hne1
      rw [(withWidth_fields filenames config).2.2.2, hno] at hc
      rw [hcol, hc, if_neg (by decide)]
    have hhead := header_plain nt2 (Base nt2.Tail.Filename) hpf2 hcol2
      (by rw [hwd2]; omega) (by rw [hwd2]; exact hmax)
    rw [hwd2] at hhead
    have hrc := RuneCountInString_le (Base nt2.Tail.Filename)
    have hbl := maxBaseLength_ge filenames filenames[i] hmem
    rw [← hname] at hbl
    refine ⟨hhead, by omega, ?_⟩
    rw [hhead, RuneCountInString_padded]
    omega

/-- C7 on the inputs "a.log" and "bb.log": W = 6 and the headers are
" a.log: " and "bb.log: ". -/
theorem NewNTails_header_width_witness :
    ((∃ f ∈ [ascii "a.log", ascii "bb.log"],
        maxBaseLength [ascii "a.log", ascii "bb.log"] = ((Base f).length : Int)) ∧
      (∀ f ∈ [ascii "a.log", ascii "bb.log"],
        ((Base f).length : Int) ≤ maxBaseLength [ascii "a.log", ascii "bb.log"]) ∧
      [(⟨⟨ascii "a.log", [], { mainConfig.Config with Location := some ⟨1, 0⟩ }⟩,
          { mainConfig with Config := { mainConfig.Config with Location := some ⟨1, 0⟩ }
                            FilenameWidth := 6, Color := NoColor }⟩ : NTail),
       ⟨⟨ascii "bb.log", [], { mainConfig.Config with Location := some ⟨1, 0⟩ }⟩,
          { mainConfig with Config := { mainConfig.Config with Location := some ⟨1, 0⟩ }
                            FilenameWidth := 6, Color := NoColor }⟩].length
        = [ascii "a.log", ascii "bb.log"].length ∧
      ∀ (i : Nat) (nt : NTail),
        [(⟨⟨ascii "a.log", [], { mainConfig.Config with Location := some ⟨1, 0⟩ }⟩,
            { mainConfig with Config := { mainConfig.Config with Location := some ⟨1, 0⟩ }
                              FilenameWidth := 6, Color := NoColor }⟩ : NTail),
         ⟨⟨ascii "bb.log", [], { mainConfig.Config with Location := some ⟨1, 0⟩ }⟩,
            { mainConfig with Config := { mainConfig.Config with Location := some ⟨1, 0⟩ }
                              FilenameWidth := 6, Color := NoColor }⟩][i]? = some nt →
        [ascii "a.log", ascii "bb.log"][i]? = some nt.Tail.Filename ∧
        nt.Config.FilenameWidth = maxBaseLength [ascii "a.log", ascii "bb.log"] ∧
        (({ mainConfig with Color := NoColor } : NTailConfig).PrintFilename = true →
          ({ mainConfig with Color := NoColor } : NTailConfig).Color = NoColor →
          maxBaseLength [ascii "a.log", ascii "bb.log"] ≤ fmtMaxWidth →
          nt.header (Base nt.Tail.Filename)
            = List.replicate
                ((maxBaseLength [ascii "a.log", ascii "bb.log"]).toNat
                  - RuneCountInString (Base nt.Tail.Filename)) 32
              ++ Base nt.Tail.Filename ++ ascii ": " ∧
          RuneCountInString (Base nt.Tail.Filename)
            ≤ (maxBaseLength [ascii "a.log", ascii "bb.log"]).toNat ∧
          (RuneCountInString (nt.header (Base nt.Tail.Filename)) : Int)
            = maxBaseLength [ascii "a.log", ascii "bb.log"] + 2)) ∧
    maxBaseLength [ascii "a.log", ascii "bb.log"] = 6 ∧
    (match NewNTails (quietEnv twoFiles) [ascii "a.log", ascii "bb.log"]
        { mainConfig with Color := NoColor } false with
      | .ok ts => ts.map (fun nt => nt.header (Base nt.Tail.Filename))
      | .error _ => []) = [ascii " a.log: ", ascii "bb.log: "] :=
  ⟨NewNTails_header_width (quietEnv twoFiles) [ascii "a.log", ascii "bb.log"]
      { mainConfig with Color := NoColor } false _ (by decide) (by decide) (by decide),
   by decide, by decide⟩

/-- C7 as stated fails on a single input path of 1,000,001 bytes 'a' (with
`-F`, colour off): `NewNTails` succeeds with W = 1,000,001, a width package fmt
rejects, and the header is "%!(BADWIDTH)" followed by the name and ": ",
W + 14 characters, not the name padded to W characters and not W + 2. -/
theorem NewNTails_header_badwidth :
    NewNTails absentEnv [wideName 1000001] plainReopenConfig false = .ok [wideTarget 1000001] ∧
    plainReopenConfig.FilenameWidth = 0 ∧ plainReopenConfig.PrintFilename = true ∧
    plainReopenConfig.Color = NoColor ∧
    (wideTarget 1000001).Config.FilenameWidth = maxBaseLength [wideName 1000001] ∧
    maxBaseLength [wideName 1000001] = 1000001 ∧
    (wideTarget 1000001).header (Base (wideTarget 1000001).Tail.Filename)
      = ascii "%!(BADWIDTH)" ++ wideName 1000001 ++ ascii ": " ∧
    RuneCountInString ((wideTarget 1000001).header (Base (wideTarget 1000001).Tail.Filename))
      = 1000015 ∧
    ¬ ((RuneCountInString
          ((wideTarget 1000001).header (Base (wideTarget 1000001).Tail.Filename)) : Int)
        = maxBaseLength [wideName 1000001] + 2) := by
  have hmax := maxBaseLength_wideName 1000001 (by norm_num)
  have hrunes := wideTarget_header_runes 1000001 (by norm_num)
  refine ⟨NewNTails_wideName 1000001 (by norm_num), rfl, rfl, rfl, ?_, ?_,
    wideTarget_header 1000001 (by norm_num), ?_, ?_⟩
  · rw [hmax]; rfl
  · rw [hmax]; rfl
  · rw [hrunes]
  · rw [hrunes, hmax]
    norm_num

end NTails
